import Mathlib

/-!
Shallow embedding of the Engineering-Knowledge-Graph repository
(graph store, query engine, connectors) and verification of the
specification's claims about it.

The repository stores its graph in Neo4j and expresses every operation as
a Cypher query (src/graph/storage.py, src/graph/query.py).  The embedding
models a Neo4j database as a list of node property maps and a list of
relationship records, and translates each Cypher query into the state
transformation / value it denotes:

  * a Neo4j entity is a flat property map; `id`, `type` and `name` are
    ordinary properties set by the queries, so nodes are modelled as a
    single association list `Props` (first binding of a key wins on
    lookup, `SET` replaces in place, `+=` folds the incoming map and,
    as in Neo4j, removes a key whose incoming value is null);
  * `MERGE (n {id: $id})` matches a node whose `id` property equals the
    parameter (determinised to the first such node; ids are unique in
    every store the code builds, since nodes are only created by this
    same MERGE);
  * variable-length patterns `-[:EDGE*1..k]->` denote the existence of a
    directed walk of 1..k relationships; Cypher forbids repeating a
    relationship inside one pattern match, but a node is in the image of
    some relationship-distinct walk of length 1..k exactly when it is in
    the image of some unrestricted walk of length 1..k (a minimal walk
    never repeats a relationship), so reachability is embedded by layered
    expansion of unrestricted walks;
  * `shortestPath((a)-[*..15]-(b))` is embedded by iterative deepening
    over undirected relationship-distinct walks (here relationship
    distinctness is semantically essential: for `a = b` Cypher does not
    admit the two-step out-and-back walk over a single relationship);
  * result rows have no specified order in Neo4j; functions whose callers
    consume the row set (`DISTINCT`, set-building) are determinised by
    store order, which is noted where it is done.
-/

/-- A Neo4j property value (the scalar values the connectors produce). -/
inductive Val where
  | s (v : String)
  | i (n : Int)
  | b (v : Bool)
  | null
deriving DecidableEq, Repr

/-- A flat property map, as held by a Neo4j node or relationship. -/
abbrev Props := List (String × Val)

/-- Look up property `k` (first binding wins; bindings are kept unique). -/
def getProp (ps : Props) (k : String) : Option Val :=
  (ps.find? (fun p => p.1 = k)).map (fun p => p.2)

/-- `SET e.k = v` on a property map: replace in place, or append. -/
def setProp (ps : Props) (k : String) (v : Val) : Props :=
  if ps.any (fun p => p.1 = k) then
    ps.map (fun p => if p.1 = k then (k, v) else p)
  else
    ps ++ [(k, v)]

/-- Remove property `k` (what Neo4j does when a key is set to null). -/
def delProp (ps : Props) (k : String) : Props :=
  ps.filter (fun p => p.1 ≠ k)

/-- `SET e += $m` on a property map: fold the incoming map key by key;
a null incoming value removes the key (Neo4j `+=` semantics). -/
def addProps (ps : Props) (m : Props) : Props :=
  m.foldl (fun acc p =>
    match p.2 with
    | Val.null => delProp acc p.1
    | v => setProp acc p.1 v) ps

/-- connectors/base.py `Node`: the dataclass a connector produces. -/
structure Node where
  id : String
  type : String
  name : String
  properties : Props
deriving DecidableEq, Repr

/-- connectors/base.py `Edge`: the dataclass a connector produces.
Pre-resolution `owns` edges carry a free-text `target`. -/
structure Edge where
  id : String
  type : String
  source : String
  target : String
  properties : Props
deriving DecidableEq, Repr

/-- A stored Neo4j relationship: its two endpoint nodes (identified by
their `id` property, unique in every store the code constructs) and its
own flat property map (holding `id` and `type` among others). -/
structure EdgeRec where
  src : String
  tgt : String
  props : Props
deriving DecidableEq, Repr

/-- The Neo4j database contents: node property maps and relationships. -/
structure Store where
  nodes : List Props
  edges : List EdgeRec
deriving DecidableEq, Repr

/-- storage.py `get_node`: `MATCH (n {id: $id}) RETURN n` — the node whose
`id` property is `$id` (first in store order; unique in built stores). -/
def get_node (s : Store) (nodeId : String) : Option Props :=
  s.nodes.find? (fun ps => getProp ps "id" = some (Val.s nodeId))

/-- Replace the first list element satisfying `p` by `f` of it. -/
def updFirst (p : α → Bool) (f : α → α) : List α → List α
  | [] => []
  | x :: xs => if p x then f x :: xs else x :: updFirst p f xs

/-- The `SET` clause of storage.py `upsert_node`:
`SET n.type = $type, n.name = $name, n += $properties`. -/
def nodeSet (n : Node) (ps : Props) : Props :=
  addProps (setProp (setProp ps "type" (Val.s n.type)) "name" (Val.s n.name)) n.properties

/-- storage.py `upsert_node`: `MERGE (n {id: $id})` then `nodeSet`.
MERGE matches an existing node by its `id` property or creates a fresh
node carrying exactly that property; the SET clause then runs on it. -/
def upsert_node (s : Store) (n : Node) : Store :=
  if s.nodes.any (fun ps => getProp ps "id" = some (Val.s n.id)) then
    { s with nodes := updFirst (fun ps => getProp ps "id" = some (Val.s n.id)) (nodeSet n) s.nodes }
  else
    { s with nodes := s.nodes ++ [nodeSet n [("id", Val.s n.id)]] }

/-- Whether a stored relationship is the one `upsert_edge`'s MERGE
pattern `(source)-[r:EDGE {id: $id}]->(target)` matches. -/
def edgeMatches (e : Edge) (er : EdgeRec) : Bool :=
  er.src = e.source && er.tgt = e.target && getProp er.props "id" = some (Val.s e.id)

/-- The `SET` clause of storage.py `upsert_edge`:
`SET r.type = $type, r += $properties`. -/
def edgeSet (e : Edge) (er : EdgeRec) : EdgeRec :=
  { er with props := addProps (setProp er.props "type" (Val.s e.type)) e.properties }

/-- storage.py `upsert_edge`:
`MATCH (source {id: $source}) MATCH (target {id: $target})` — if either
endpoint is absent the query matches no rows and nothing happens — then
`MERGE (source)-[r:EDGE {id: $id}]->(target)` (match the relationship
with this `id` between these endpoints, or create it with exactly that
property) followed by `edgeSet`. -/
def upsert_edge (s : Store) (e : Edge) : Store :=
  if (get_node s e.source).isSome && (get_node s e.target).isSome then
    if s.edges.any (edgeMatches e) then
      { s with edges := updFirst (edgeMatches e) (edgeSet e) s.edges }
    else
      { s with edges := s.edges ++ [edgeSet e ⟨e.source, e.target, [("id", Val.s e.id)]⟩] }
  else
    s

/-- connectors/base.py `_add_edge`: a connector-local list of edges,
deduplicated by `id`, first write wins. -/
def add_edge (es : List Edge) (e : Edge) : List Edge :=
  if es.any (fun x => x.id = e.id) then es else es ++ [e]

/-- Python `dict.update`: overwrite key by key, keep insertion position
of existing keys (null values stay, unlike Neo4j `+=`). -/
def dictUpdate (ps m : Props) : Props :=
  m.foldl (fun acc p => setProp acc p.1 p.2) ps

/-- connectors/base.py `_add_node`: a connector-local list of nodes; an
existing node with the same id gets the incoming properties dict-updated
onto it, otherwise the node is appended. -/
def add_node (ns : List Node) (n : Node) : List Node :=
  if ns.any (fun x => x.id = n.id) then
    updFirst (fun x => x.id = n.id)
      (fun x => { x with properties := dictUpdate x.properties n.properties }) ns
  else
    ns ++ [n]

/-! ## Query engine (src/graph/query.py) -/

/-- Targets of store relationships whose source lies in `S`: one
directed expansion step of the pattern `-[:EDGE]->`. -/
def stepNexts (es : List EdgeRec) (S : List String) : List String :=
  es.filterMap (fun e => if S.contains e.src then some e.tgt else none)

/-- Endpoints of directed walks of exactly `k` relationships from `a`. -/
def walkEnds (es : List EdgeRec) (a : String) : Nat → List String
  | 0 => [a]
  | k+1 => stepNexts es (walkEnds es a k)

/-- Ids with a directed walk of between 1 and `d` hops from `a`: the
denotation of `(start)-[r:EDGE*1..d]->(x)` (see the module comment on
relationship distinctness). -/
def reachIds (es : List EdgeRec) (a : String) (d : Nat) : List String :=
  (List.range d).foldr (fun k acc => walkEnds es a (k+1) ++ acc) []

/-- query.py `downstream` with its default `edge_types=None` (the
restricted variant interpolates a filter that reads `r.type` where `r`
is the variable-length relationship list, which Neo4j rejects, so it is
not modelled): the DISTINCT nodes reachable by 1..10 forward hops.
Neo4j specifies no row order; determinised to store node order. -/
def downstream (s : Store) (a : String) : List Props :=
  s.nodes.filter (fun nd => (reachIds s.edges a 10).any (fun i => getProp nd "id" = some (Val.s i)))

/-- Reverse every relationship (to reuse forward reachability for the
pattern `(upstream)-[r:EDGE*1..10]->(target)`). -/
def flipEdges (es : List EdgeRec) : List EdgeRec :=
  es.map (fun e => ⟨e.tgt, e.src, e.props⟩)

/-- query.py `upstream` with its default `edge_types=None`: the DISTINCT
nodes with a directed walk of 1..10 hops into `a`. -/
def upstream (s : Store) (a : String) : List Props :=
  s.nodes.filter (fun nd => (reachIds (flipEdges s.edges) a 10).any (fun i => getProp nd "id" = some (Val.s i)))

/-- The rows of query.py `get_owner`:
`MATCH (team {type: 'team'})-[r:EDGE {type: 'owns'}]->(target {id: $node_id})
RETURN team`, determinised to relationship order. -/
def ownerRows (s : Store) (x : String) : List Props :=
  s.edges.filterMap (fun e =>
    if e.tgt = x && getProp e.props "type" = some (Val.s "owns") then
      match get_node s e.src with
      | some nd => if getProp nd "type" = some (Val.s "team") then some nd else none
      | none => none
    else none)

/-- query.py `get_owner`: the driver call `result.single()` returns the
first record (only a warning is emitted when further records exist). -/
def get_owner (s : Store) (x : String) : Option Props :=
  (ownerRows s x).head?

/-- First-occurrence deduplication (Python set insertion / Cypher
DISTINCT row dedup, in first-appearance order). -/
def dedupKeep [DecidableEq α] (l : List α) : List α :=
  l.foldl (fun acc x => if acc.contains x then acc else acc ++ [x]) []

/-- The `id` property of a returned node row, as Python
`n.get("id")` sees it (absent key gives `None`). -/
def getIdStr (nd : Props) : Option String :=
  match getProp nd "id" with
  | some (Val.s i) => some i
  | _ => none

/-- query.py `BlastRadiusResult`. -/
structure BlastRadiusResult where
  node : Props
  upstream : List Props
  downstream : List Props
  affected_teams : List Props
  total_affected : Nat
deriving DecidableEq, Repr

/-- query.py `blast_radius`: `None` when the node is absent; otherwise
`all_affected_ids` is the set of ids of the upstream and downstream rows
plus the queried id, `total_affected` its cardinality, and
`affected_teams` the distinct owners found while iterating it (Python
set iteration order is unspecified; determinised to first appearance). -/
def blast_radius (s : Store) (x : String) : Option BlastRadiusResult :=
  match get_node s x with
  | none => none
  | some nd =>
    let up := upstream s x
    let down := downstream s x
    let idSet : Finset (Option String) := ((up ++ down).map getIdStr).toFinset ∪ {some x}
    let teamList := (dedupKeep ((up ++ down).map getIdStr ++ [some x])).foldl
      (fun acc oi =>
        match oi with
        | some i =>
          match get_owner s i with
          | some t => if acc.contains t then acc else acc ++ [t]
          | none => acc
        | none => acc) []
    some ⟨nd, up, down, teamList, idSet.card⟩

/-- Each element of a list paired with the remaining elements. -/
def picks : List α → List (α × List α)
  | [] => []
  | x :: xs => (x, xs) :: (picks xs).map (fun p => (p.1, x :: p.2))

/-- One undirected hop from `cur` using one yet-unused relationship of
`rem`: the successor node and the relationships still unused. -/
def undirSteps (cur : String) (rem : List EdgeRec) : List (String × List EdgeRec) :=
  (picks rem).foldr (fun pr acc =>
    (if pr.1.src = cur then [(pr.1.tgt, pr.2)] else []) ++
    (if pr.1.tgt = cur then [(pr.1.src, pr.2)] else []) ++ acc) []

/-- Extend each partial undirected walk (reversed node list with head at
the current node, paired with its unused relationships) by one hop. -/
def extendWalks (ws : List (List String × List EdgeRec)) : List (List String × List EdgeRec) :=
  ws.foldr (fun w acc =>
    (match w.1 with
     | [] => []
     | cur :: _ => (undirSteps cur w.2).map (fun st => (st.1 :: w.1, st.2))) ++ acc) []

/-- All undirected relationship-distinct walks of exactly `k` hops from
`a` over the relationship list `es` (Cypher forbids reusing a
relationship within one variable-length pattern match). -/
def walksN (es : List EdgeRec) (a : String) : Nat → List (List String × List EdgeRec)
  | 0 => [([a], es)]
  | k+1 => extendWalks (walksN es a k)

/-- A walk of exactly `k` hops from `a` ending at `b`, if any exists
(choice among equals determinised by relationship order). -/
def walkTo (es : List EdgeRec) (a b : String) (k : Nat) : Option (List String) :=
  ((walksN es a k).find? (fun w => w.1.head? = some b)).map (fun w => w.1.reverse)

/-- Iterative deepening over hop counts `1..k`: the denotation of
`shortestPath` with hop bound `k` — the shortest admissible walk,
smallest hop count first. -/
def shortestUpTo (es : List EdgeRec) (a b : String) : Nat → Option (List String)
  | 0 => none
  | k+1 => (shortestUpTo es a b k).orElse (fun _ => walkTo es a b (k+1))

/-- query.py `path`:
`MATCH (start {id: $from_id}), (end {id: $to_id})` (no row when either
endpoint is absent), then `MATCH path = shortestPath((start)-[*..15]-(end))`
(hop bound 15, lower bound 1, undirected; no row when no such path),
then `UNWIND nodes(path) as node RETURN DISTINCT node`, embedded as the
sequence of node ids.  With equal endpoints, default Neo4j configuration
raises instead of matching; the embedding uses the relaxed semantics, in
which the pattern still admits no zero-hop walk. -/
def path (s : Store) (fromId toId : String) : List String :=
  if (get_node s fromId).isSome && (get_node s toId).isSome then
    match shortestUpTo s.edges fromId toId 15 with
    | some w => dedupKeep w
    | none => []
  else []

/-! ## Connectors (src/connectors/) -/

/-- Character-list containment helper: does `n` occur as a contiguous
segment of the second list (Python `n in hay` on strings)? -/
def infixAt (n : List Char) : List Char → Bool
  | [] => n.isEmpty
  | c :: cs => n.isPrefixOf (c :: cs) || infixAt n cs

/-- Python `needle in hay` on strings. -/
def strContainsStr (hay needle : String) : Bool :=
  infixAt needle.toList hay.toList

/-- Python `hay.endswith(needle)`. -/
def strEndsWith (hay needle : String) : Bool :=
  needle.toList.reverse.isPrefixOf hay.toList.reverse

/-- Assoc-list lookup for a Python string-keyed dict. -/
def dget (m : List (String × String)) (k : String) : Option String :=
  (m.find? (fun p => p.1 = k)).map (fun p => p.2)

/-- Insert into a Python dict modelled as an assoc list: overwrite in
place (insertion position of an existing key is preserved) or append. -/
def dinsert (m : List (String × String)) (k v : String) : List (String × String) :=
  if m.any (fun p => p.1 = k) then
    m.map (fun p => if p.1 = k then (k, v) else p)
  else
    m ++ [(k, v)]

/-- teams.py `resolve_ownership_targets`, lookup construction: for each
node in list order, `node_map[node.name] = node.id` then
`node_map[node.id] = node.id`. -/
def buildNodeMap (all_nodes : List Node) : List (String × String) :=
  all_nodes.foldl (fun m n => dinsert (dinsert m n.name n.id) n.id n.id) []

/-- Python `s.split(":")` on the character level (structural recursion,
so that concrete runs reduce). -/
def splitColon : List Char → List (List Char)
  | [] => [[]]
  | c :: rest =>
    let r := splitColon rest
    if c = ':' then [] :: r
    else
      match r with
      | [] => [[c]]
      | h :: t => (c :: h) :: t

/-- Python `s.split(":")[1]` for the id strings the resolver builds
(always of shape `<kind>:<name>` there); totalised with `""`. -/
def secondSeg (s : String) : String :=
  String.mk (((splitColon s.toList).drop 1).headD [])

/-- The fuzzy branch's candidate test on one lookup key (a node name or
a node id): `target in node_name or node_name.endswith(target)`; the
`endswith` disjunct is subsumed by containment. -/
def fuzzyHit (target key : String) : Bool :=
  strContainsStr key target || strEndsWith key target

/-- teams.py `resolve_ownership_targets` on one raw `owns` edge: exact
lookup of the literal target rewrites the target to the found id;
otherwise the first entry of the lookup dict (in insertion order) that
passes `fuzzyHit` is taken, with a rebuilt edge id; otherwise the edge
yields nothing — no diagnostic value exists in the function's type. -/
def resolveOne (node_map : List (String × String)) (e : Edge) : Option Edge :=
  match dget node_map e.target with
  | some nid => some { e with target := nid }
  | none =>
    match node_map.find? (fun p => fuzzyHit e.target p.1) with
    | some p => some { e with
        id := "edge:" ++ secondSeg e.source ++ "-owns-" ++ secondSeg p.2,
        target := p.2 }
    | none => none

/-- teams.py `resolve_ownership_targets`: only `owns` edges are
processed (and only resolved ones are returned). -/
def resolve_ownership_targets (all_nodes : List Node) (edges : List Edge) : List Edge :=
  (edges.filter (fun e => e.type = "owns")).filterMap (resolveOne (buildNodeMap all_nodes))

/-- teams.py `parse`, ownership part: the raw `owns` edge built for one
declared ownership target — its `target` is the literal declared string. -/
def teamsOwnsEdge (teamName ownedItem : String) : Edge :=
  ⟨"edge:" ++ teamName ++ "-owns-" ++ ownedItem, "owns", "team:" ++ teamName, ownedItem, []⟩

/-- Match, at the start of `s`, a regex of shape
`<lit>([^bad]+)<c∈need>` (no trailing class when `need = none`): the
literal, then the maximal nonempty run outside `bad`, then a required
following character.  With these character classes, greedy matching
backtracks only by moving the start position, which `scanPat` does. -/
def patAt (lit : List Char) (bad : List Char) (need : Option (List Char)) (s : List Char) : Option (List Char) :=
  if lit.isPrefixOf s then
    let rest := s.drop lit.length
    let run := rest.takeWhile (fun c => ¬ bad.contains c)
    if run.isEmpty then none
    else
      match need with
      | none => some run
      | some cls =>
        match rest.drop run.length with
        | c :: _ => if cls.contains c then some run else none
        | [] => none
  else none

/-- Python `re.search` for the patterns of `patAt`: try each start
position left to right. -/
def scanPat (lit : List Char) (bad : List Char) (need : Option (List Char)) : List Char → Option (List Char)
  | [] => patAt lit bad need []
  | c :: cs => (patAt lit bad need (c :: cs)).orElse (fun _ => scanPat lit bad need cs)

/-- docker_compose.py `_extract_service_from_url`: the four connection
string patterns, tried in order, each searched over the whole url. -/
def _extract_service_from_url (url : String) : Option String :=
  let cs := url.toList
  let bad := [':', '/', '@']
  ((((scanPat "://".toList bad (some [':']) cs).orElse
      (fun _ => scanPat "://".toList bad (some ['/']) cs)).orElse
      (fun _ => scanPat "@".toList bad (some [':']) cs)).orElse
      (fun _ => scanPat "http://".toList bad none cs)).map String.mk

/-- kubernetes.py `_extract_service_from_k8s_url`: the two cluster-DNS
patterns, tried in order. -/
def _extract_service_from_k8s_url (url : String) : Option String :=
  let cs := url.toList
  ((scanPat "http://".toList ['.'] (some ['.']) cs).orElse
      (fun _ => scanPat "://".toList [':', '/', '.'] (some ['.', ':']) cs)).map String.mk

/-- Python `str.lower()` on the character level (ASCII inputs; written
so that concrete runs reduce). -/
def strLower (s : String) : String := String.mk (s.toList.map Char.toLower)

/-- docker_compose.py keyword list `DATABASE_IMAGES`. -/
def DATABASE_IMAGES : List String := ["postgres", "mysql", "mariadb", "mongodb", "cassandra"]

/-- docker_compose.py keyword list `CACHE_IMAGES`. -/
def CACHE_IMAGES : List String := ["redis", "memcached"]

/-- A compose service configuration, restricted to the fields
`_infer_node_type` and the edge-derivation loop read.  `environment` is
taken in its dict form (`_parse_environment` normalises the list form
to it and is the identity on dicts). -/
structure SvcConfig where
  labels : List (String × String)
  image : String
  depends_on : List String
  environment : List (String × String)
deriving DecidableEq, Repr

/-- The `services.get(name, {})` default. -/
def emptyCfg : SvcConfig := ⟨[], "", [], []⟩

/-- Lookup in the compose `services` dict. -/
def svcGet (services : List (String × SvcConfig)) (n : String) : Option SvcConfig :=
  (services.find? (fun p => p.1 = n)).map (fun p => p.2)

/-- docker_compose.py `_infer_node_type`: explicit `type` label, then
image keyword lists, then name keyword lists, then `service`. -/
def _infer_node_type (name : String) (cfg : SvcConfig) : String :=
  if dget cfg.labels "type" = some "database" then "database"
  else if dget cfg.labels "type" = some "cache" then "cache"
  else if DATABASE_IMAGES.any (fun d => strContainsStr (strLower cfg.image) d) then "database"
  else if CACHE_IMAGES.any (fun c => strContainsStr (strLower cfg.image) c) then "cache"
  else if ["db", "database", "postgres", "mysql"].any (fun x => strContainsStr (strLower name) x) then "database"
  else if ["redis", "cache", "memcached"].any (fun x => strContainsStr (strLower name) x) then "cache"
  else "service"

/-- docker_compose.py `_infer_edge_type`: edge type from the target's
inferred type. -/
def _infer_edge_type (target_type : String) : String :=
  if target_type = "database" then "reads_from"
  else if target_type = "cache" then "uses"
  else "calls"

/-- The `depends_on` edge docker_compose.py builds for one declared
dependency of one service (`services.get(dep, {})` supplies the target
config; the edge type comes from the target's inferred type). -/
def composeDepEdge (services : List (String × SvcConfig)) (name : String) (cfg : SvcConfig) (dep : String) : Edge :=
  ⟨"edge:" ++ name ++ "-" ++
      _infer_edge_type (_infer_node_type dep ((svcGet services dep).getD emptyCfg)) ++ "-" ++ dep,
    _infer_edge_type (_infer_node_type dep ((svcGet services dep).getD emptyCfg)),
    _infer_node_type name cfg ++ ":" ++ name,
    _infer_node_type dep ((svcGet services dep).getD emptyCfg) ++ ":" ++ dep, []⟩

/-- One step of docker_compose.py's `_URL` environment scan for one
service: an edge is synthesized only when the key contains `_URL`, the
value is nonempty, a hostname is extracted, it is a key of `services`,
and the resulting target id differs from the source id. -/
def composeUrlStep (services : List (String × SvcConfig)) (name : String) (cfg : SvcConfig)
    (es : List Edge) (kv : String × String) : List Edge :=
  if strContainsStr kv.1 "_URL" && kv.2 ≠ "" then
    match _extract_service_from_url kv.2 with
    | some tname =>
      match svcGet services tname with
      | some tcfg =>
        if _infer_node_type tname tcfg ++ ":" ++ tname ≠ _infer_node_type name cfg ++ ":" ++ name then
          add_edge es ⟨"edge:" ++ name ++ "-" ++ _infer_edge_type (_infer_node_type tname tcfg) ++ "-" ++ tname,
            _infer_edge_type (_infer_node_type tname tcfg),
            _infer_node_type name cfg ++ ":" ++ name,
            _infer_node_type tname tcfg ++ ":" ++ tname, []⟩
        else es
      | none => es
    | none => es
  else es

/-- docker_compose.py `parse`, edge-derivation loop body for one
service: `depends_on` edges, then `_URL` environment edges, all added
through `_add_edge`. -/
def composeSvcEdges (services : List (String × SvcConfig)) (es0 : List Edge) (name : String) (cfg : SvcConfig) : List Edge :=
  cfg.environment.foldl (composeUrlStep services name cfg)
    (cfg.depends_on.foldl (fun es dep => add_edge es (composeDepEdge services name cfg dep)) es0)

/-- docker_compose.py `parse`: the edges derived from the whole
`services` dict (the claim-relevant output; node construction does not
feed into it). -/
def composeEdges (services : List (String × SvcConfig)) : List Edge :=
  services.foldl (fun es p => composeSvcEdges services es p.1 p.2) []

/-- kubernetes.py `_parse_deployment`, dependency-edge part: for each
env entry whose key contains `_URL` and whose value is nonempty, the
extracted target (when present and different from the deployment name)
yields an edge that is always of type `calls` and always targets
`service:<name>`. -/
def k8sEnvEdges (name : String) (env : List (String × String)) : List Edge :=
  env.foldl (fun es kv =>
    if strContainsStr kv.1 "_URL" && kv.2 ≠ "" then
      match _extract_service_from_k8s_url kv.2 with
      | some t =>
        if t ≠ name then
          add_edge es ⟨"edge:" ++ name ++ "-calls-" ++ t, "calls",
            "service:" ++ name, "service:" ++ t, [("via", Val.s "k8s_env")]⟩
        else es
      | none => es
    else es) []

/-! ## Helper definitions for the verification -/

/-- The per-key effect of one incoming binding under Neo4j `SET`. -/
def propVal (v : Val) : Option Val :=
  match v with
  | Val.null => none
  | v => some v

/-- The per-key effect of a whole binding list (later bindings win). -/
def applyBinds (l : Props) (k : String) (x : Option Val) : Option Val :=
  l.foldl (fun cur p => if p.1 = k then propVal p.2 else cur) x

/-- The binding list whose `applyBinds` action equals the `SET` clause
of `upsert_node`. -/
def nodeActs (n : Node) : Props :=
  ("type", Val.s n.type) :: ("name", Val.s n.name) :: n.properties

/-- The binding list whose `applyBinds` action equals the `SET` clause
of `upsert_edge`. -/
def edgeActs (e : Edge) : Props :=
  ("type", Val.s e.type) :: e.properties

/-- Maps agreeing on every key (Neo4j property maps are unordered; the
binding order of the embedding is an artifact of the list encoding). -/
def PropsEq (ps qs : Props) : Prop := ∀ k, getProp ps k = getProp qs k

/-- Stores with identical relationships and pointwise-equal node maps. -/
def StoreEq (s t : Store) : Prop :=
  List.Forall₂ PropsEq s.nodes t.nodes ∧ s.edges = t.edges

/-- Fixture: a store holding one service node with two properties. -/
def c4Store : Store :=
  upsert_node ⟨[], []⟩ ⟨"service:api", "service", "api", [("team", Val.s "core"), ("port", Val.i 80)]⟩

/-- Fixture: a partial re-upsert of the same node. -/
def c4Node : Node := ⟨"service:api", "service", "api", [("port", Val.i 8080)]⟩

/-- Fixture: a store holding one service node. -/
def c5Store : Store := upsert_node ⟨[], []⟩ ⟨"service:x", "service", "x", []⟩

/-- Fixture: an upsert reusing id `service:x` with different type and name. -/
def c5Node : Node := ⟨"service:x", "database", "y", []⟩

/-- Fixture: a store holding two service nodes. -/
def c3Store0 : Store :=
  upsert_node (upsert_node ⟨[], []⟩ ⟨"service:a", "service", "a", []⟩) ⟨"service:b", "service", "b", []⟩

/-- Fixture: the store after a first `upsert_edge` with id `e1`. -/
def c3Store1 : Store := upsert_edge c3Store0 ⟨"e1", "calls", "service:a", "service:b", [("x", Val.i 1)]⟩

/-- Fixture: a second edge with the same id but different type and properties. -/
def c3Edge2 : Edge := ⟨"e1", "owns", "service:a", "service:b", [("y", Val.i 2)]⟩

/-- Fixture: the store after re-upserting id `e1` with different content. -/
def c3Store2 : Store := upsert_edge c3Store1 c3Edge2

/-- Fixture: a store holding only a team node, as after the teams
connector's nodes are loaded. -/
def c10Store : Store :=
  upsert_node ⟨[], []⟩ ⟨"team:platform", "team", "platform", [("lead", Val.s "sam")]⟩

/-- Fixture: a raw ownership edge whose target is the literal declared
string, as teams.py `parse` emits it. -/
def c10Edge : Edge := teamsOwnsEdge "platform" "payments-api"

/-- Fixture: two team nodes both owning `service:x` (a data-integrity
violation per the spec). -/
def c8Store : Store :=
  upsert_edge (upsert_edge (upsert_node (upsert_node (upsert_node ⟨[], []⟩
    ⟨"team:t1", "team", "t1", []⟩) ⟨"team:t2", "team", "t2", []⟩) ⟨"service:x", "service", "x", []⟩)
    ⟨"edge:t1-owns-x", "owns", "team:t1", "service:x", []⟩)
    ⟨"edge:t2-owns-x", "owns", "team:t2", "service:x", []⟩

/-- Fixture: one team owning `service:x` (the expected situation). -/
def c8bStore : Store :=
  upsert_edge (upsert_node (upsert_node ⟨[], []⟩
    ⟨"team:t1", "team", "t1", []⟩) ⟨"service:x", "service", "x", []⟩)
    ⟨"edge:t1-owns-x", "owns", "team:t1", "service:x", []⟩

/-- Spec-side predicate: a directed walk of exactly `k` relationships
from `a` to `b` (the claim's "following directed edges forward"). -/
inductive DirWalk (es : List EdgeRec) : String → String → Nat → Prop
  | refl (a : String) : DirWalk es a a 0
  | step {a b c : String} {k : Nat} (hw : DirWalk es a b k)
      (he : ∃ e ∈ es, e.src = b ∧ e.tgt = c) : DirWalk es a c (k + 1)

/-- Fixture: the spec's scenario graph — services A, B, C with `calls`
edges A→B→C and team T owning A. -/
def c6Store : Store :=
  upsert_edge (upsert_edge (upsert_edge (upsert_node (upsert_node (upsert_node (upsert_node ⟨[], []⟩
    ⟨"service:a", "service", "a", []⟩) ⟨"service:b", "service", "b", []⟩)
    ⟨"service:c", "service", "c", []⟩) ⟨"team:t", "team", "t", []⟩)
    ⟨"edge:a-calls-b", "calls", "service:a", "service:b", []⟩)
    ⟨"edge:b-calls-c", "calls", "service:b", "service:c", []⟩)
    ⟨"edge:t-owns-a", "owns", "team:t", "service:a", []⟩

/-- Fixture: a two-node directed cycle A→B→A. -/
def cycStore : Store :=
  upsert_edge (upsert_edge (upsert_node (upsert_node ⟨[], []⟩
    ⟨"service:a", "service", "a", []⟩) ⟨"service:b", "service", "b", []⟩)
    ⟨"edge:a-calls-b", "calls", "service:a", "service:b", []⟩)
    ⟨"edge:b-calls-a", "calls", "service:b", "service:a", []⟩

/-- The id strings of the stored nodes. -/
def storeIds (s : Store) : List String := s.nodes.filterMap getIdStr

/-- Well-formedness maintained by the ingestion pipeline: every stored
node carries an id, ids are distinct, and every relationship endpoint is
a stored node id (`upsert_edge` only creates relationships between
matched nodes). -/
def WFStore (s : Store) : Prop :=
  (∀ nd ∈ s.nodes, (getIdStr nd).isSome) ∧ (storeIds s).Nodup ∧
  (∀ e ∈ s.edges, e.src ∈ storeIds s ∧ e.tgt ∈ storeIds s)

/-- Fixture: two service nodes whose names both contain `svc`; the node
with the lexicographically larger id comes first in list order. -/
def c1Nodes : List Node :=
  [⟨"service:bbb", "service", "bbb-svc", []⟩, ⟨"service:aaa", "service", "aaa-svc", []⟩]

/-- Fixture: a compose file with a service `api` whose `DATABASE_URL`
points at the `ordersdb` service (a postgres image). -/
def c9Services : List (String × SvcConfig) :=
  [("api", ⟨[], "python", [], [("DATABASE_URL", "postgres://user@ordersdb:5432/orders")]⟩),
   ("ordersdb", ⟨[], "postgres:15", [], []⟩)]

/-- Fixture: the edge the compose connector derives for `c9Services`. -/
def c9Edge : Edge :=
  ⟨"edge:api-reads_from-ordersdb", "reads_from", "service:api", "database:ordersdb", []⟩

/-- Fixture: the edge the cluster connector derives for a deployment
`api` with a `REDIS_URL` environment entry. -/
def c9K8sEdge : Edge :=
  ⟨"edge:api-calls-redis", "calls", "service:api", "service:redis", [("via", Val.s "k8s_env")]⟩

/-- Spec-side predicate: `x` and `y` are joined by some stored
relationship, in either direction (the undirected pattern of `path`). -/
def undirAdj (es : List EdgeRec) (x y : String) : Prop :=
  ∃ e ∈ es, (e.src = x ∧ e.tgt = y) ∨ (e.src = y ∧ e.tgt = x)

/-- Fixture: a store holding a single node and no relationships. -/
def c2aStore : Store := upsert_node ⟨[], []⟩ ⟨"service:a", "service", "a", []⟩

/-- The target-typed shape of every edge the compose connector derives:
its type is the heuristic applied to its target's inferred type. -/
def composeTyped (services : List (String × SvcConfig)) (e : Edge) : Prop :=
  ∃ tname,
    e.type = _infer_edge_type (_infer_node_type tname ((svcGet services tname).getD emptyCfg)) ∧
    e.target = _infer_node_type tname ((svcGet services tname).getD emptyCfg) ++ ":" ++ tname

/-! ## Theorems -/

theorem getProp_nil (k : String) : getProp [] k = none := rfl

theorem getProp_cons (p : String × Val) (ps : Props) (k : String) :
    getProp (p :: ps) k = if p.1 = k then some p.2 else getProp ps k := by
  by_cases h : p.1 = k <;> simp [getProp, List.find?, h]

theorem getProp_map_set (ps : Props) (k k2 : String) (v : Val) :
    getProp (ps.map (fun p => if p.1 = k then (k, v) else p)) k2 =
      if k2 = k then (if ps.any (fun p => p.1 = k) then some v else none)
      else getProp ps k2 := by
  induction ps with
  | nil => by_cases h : k2 = k <;> simp [getProp_nil, h]
  | cons p ps ih =>
    by_cases hp : p.1 = k
    · by_cases h2 : k2 = k
      · subst h2
        simp [hp, getProp_cons]
      · simp [hp, getProp_cons, Ne.symm h2, h2, ih]
    · by_cases h2 : k2 = k
      · subst h2
        have hd := decide_eq_false hp
        simp [getProp_cons, hp, ih]
        rw [hd, Bool.false_or]
      · simp [hp, getProp_cons, h2, ih]

theorem getProp_append_one (ps : Props) (k k2 : String) (v : Val) :
    getProp (ps ++ [(k, v)]) k2 =
      match getProp ps k2 with
      | some w => some w
      | none => if k2 = k then some v else none := by
  induction ps with
  | nil =>
    by_cases h : k2 = k
    · simp [getProp_nil, getProp_cons, h]
    · simp [getProp_nil, getProp_cons, h, Ne.symm h]
  | cons p ps ih =>
    by_cases hp : p.1 = k2 <;> simp [List.cons_append, getProp_cons, hp, ih]

theorem getProp_eq_none_of_not_any (ps : Props) (k : String)
    (hany : ¬ ps.any (fun p => p.1 = k)) : getProp ps k = none := by
  simp [getProp]
  intro a b hmem hak
  exact hany (List.any_eq_true.mpr ⟨(a, b), hmem, by simp [hak]⟩)

theorem getProp_setProp (ps : Props) (k k2 : String) (v : Val) :
    getProp (setProp ps k v) k2 = if k2 = k then some v else getProp ps k2 := by
  unfold setProp
  by_cases hany : ps.any (fun p => p.1 = k)
  · simp [hany, getProp_map_set]
  · simp only [hany, if_false, Bool.false_eq_true, getProp_append_one]
    by_cases h2 : k2 = k
    · subst h2
      simp [getProp_eq_none_of_not_any ps k2 hany]
    · simp only [h2, if_false]
      cases h : getProp ps k2 <;> simp

theorem delProp_cons_hit (p : String × Val) (ps : Props) (k : String) (hp : p.1 = k) :
    delProp (p :: ps) k = delProp ps k := by
  simp [delProp, List.filter_cons, hp]

theorem delProp_cons_miss (p : String × Val) (ps : Props) (k : String) (hp : ¬ p.1 = k) :
    delProp (p :: ps) k = p :: delProp ps k := by
  simp [delProp, List.filter_cons, hp]

theorem getProp_delProp (ps : Props) (k k2 : String) :
    getProp (delProp ps k) k2 = if k2 = k then none else getProp ps k2 := by
  induction ps with
  | nil => by_cases h : k2 = k <;> simp [delProp, getProp_nil, h]
  | cons p ps ih =>
    by_cases hp : p.1 = k
    · rw [delProp_cons_hit p ps k hp, ih]
      by_cases h2 : k2 = k
      · simp [h2]
      · have hpk2 : p.1 ≠ k2 := by rw [hp]; exact Ne.symm h2
        simp [h2, getProp_cons, hpk2]
    · rw [delProp_cons_miss p ps k hp, getProp_cons]
      by_cases hq : p.1 = k2
      · have h2 : ¬ k2 = k := by
          intro h
          exact hp (by rw [hq, h])
        simp [hq, h2, getProp_cons]
      · simp [hq, getProp_cons, ih]

theorem applyBinds_cons (p : String × Val) (l : Props) (k : String) (x : Option Val) :
    applyBinds (p :: l) k x = applyBinds l k (if p.1 = k then propVal p.2 else x) := rfl

theorem propVal_null : propVal Val.null = none := rfl

theorem propVal_of_ne (v : Val) (h : v ≠ Val.null) : propVal v = some v := by
  cases v with
  | null => exact absurd rfl h
  | s w => rfl
  | i n => rfl
  | b w => rfl

theorem addProps_step_null (ps : Props) (p : String × Val) (l : Props) (h : p.2 = Val.null) :
    addProps ps (p :: l) = addProps (delProp ps p.1) l := by
  simp [addProps, List.foldl_cons, h]

theorem addProps_step_val (ps : Props) (p : String × Val) (l : Props) (h : p.2 ≠ Val.null) :
    addProps ps (p :: l) = addProps (setProp ps p.1 p.2) l := by
  cases hv : p.2 with
  | null => exact absurd hv h
  | s w => simp [addProps, List.foldl_cons, hv]
  | i n => simp [addProps, List.foldl_cons, hv]
  | b w => simp [addProps, List.foldl_cons, hv]

theorem getProp_addProps (ps l : Props) (k : String) :
    getProp (addProps ps l) k = applyBinds l k (getProp ps k) := by
  induction l generalizing ps with
  | nil => rfl
  | cons p l ih =>
    rw [applyBinds_cons]
    by_cases hnull : p.2 = Val.null
    · rw [addProps_step_null ps p l hnull, ih, getProp_delProp]
      by_cases h : p.1 = k
      · simp [h, hnull, propVal_null]
      · have h2 : ¬ k = p.1 := fun hh => h hh.symm
        simp [h, h2]
    · rw [addProps_step_val ps p l hnull, ih, getProp_setProp]
      by_cases h : p.1 = k
      · simp [h, propVal_of_ne p.2 hnull]
      · have h2 : ¬ k = p.1 := fun hh => h hh.symm
        simp [h, h2]

theorem not_any_of_getProp_eq_none (l : Props) (k : String) (h : getProp l k = none) :
    ¬ l.any (fun p => p.1 = k) := by
  intro hany
  obtain ⟨p, hmem, hk⟩ := List.any_eq_true.mp hany
  have : l.find? (fun p => p.1 = k) = none := by
    simpa [getProp] using h
  have := List.find?_eq_none.mp this p hmem
  exact this hk

theorem applyBinds_id_of_not_any (l : Props) (k : String) (x : Option Val)
    (h : ¬ l.any (fun p => p.1 = k)) : applyBinds l k x = x := by
  induction l generalizing x with
  | nil => rfl
  | cons p l ih =>
    simp only [List.any_cons, Bool.or_eq_true, not_or] at h
    rw [applyBinds_cons]
    have hp : ¬ p.1 = k := by simpa using h.1
    rw [if_neg hp]
    exact ih x h.2

theorem applyBinds_const_of_any (l : Props) (k : String) (x y : Option Val)
    (h : l.any (fun p => p.1 = k)) : applyBinds l k x = applyBinds l k y := by
  induction l generalizing x y with
  | nil => simp at h
  | cons p l ih =>
    rw [applyBinds_cons, applyBinds_cons]
    by_cases hp : p.1 = k
    · rw [if_pos hp, if_pos hp]
    · rw [if_neg hp, if_neg hp]
      simp only [List.any_cons, Bool.or_eq_true] at h
      rcases h with h | h
      · exact absurd (by simpa using h) hp
      · exact ih x y h

theorem applyBinds_idem (l : Props) (k : String) (x : Option Val) :
    applyBinds l k (applyBinds l k x) = applyBinds l k x := by
  by_cases h : l.any (fun p => p.1 = k)
  · exact applyBinds_const_of_any l k _ x h
  · rw [applyBinds_id_of_not_any l k _ h]

theorem applyBinds_of_getProp_none (l : Props) (k : String) (x : Option Val)
    (h : getProp l k = none) : applyBinds l k x = x :=
  applyBinds_id_of_not_any l k x (not_any_of_getProp_eq_none l k h)

theorem applyBinds_of_getProp_some (l : Props) (k : String) (v : Val) (x : Option Val)
    (hnd : (l.map Prod.fst).Nodup) (h : getProp l k = some v) :
    applyBinds l k x = propVal v := by
  induction l generalizing x with
  | nil => simp [getProp_nil] at h
  | cons p l ih =>
    rw [applyBinds_cons]
    rw [getProp_cons] at h
    simp only [List.map_cons, List.nodup_cons] at hnd
    by_cases hp : p.1 = k
    · rw [if_pos hp] at h ⊢
      injection h with h
      subst h
      have hnone : ¬ l.any (fun q => q.1 = k) := by
        intro hany
        obtain ⟨q, hmem, hq⟩ := List.any_eq_true.mp hany
        exact hnd.1 (by
          rw [hp]
          have : q.1 = k := by simpa using hq
          rw [← this]
          exact List.mem_map_of_mem Prod.fst hmem)
      exact applyBinds_id_of_not_any l k _ hnone
    · rw [if_neg hp] at h ⊢
      exact ih x hnd.2 h

theorem nodeSet_eq_addProps (n : Node) (ps : Props) :
    nodeSet n ps = addProps ps (nodeActs n) := rfl

theorem getProp_nodeSet (n : Node) (ps : Props) (k : String) :
    getProp (nodeSet n ps) k = applyBinds (nodeActs n) k (getProp ps k) := by
  rw [nodeSet_eq_addProps, getProp_addProps]

theorem getProp_nodeSet_idem (n : Node) (ps : Props) (k : String) :
    getProp (nodeSet n (nodeSet n ps)) k = getProp (nodeSet n ps) k := by
  rw [getProp_nodeSet, getProp_nodeSet, applyBinds_idem]

/-- `nodeSet` keeps the `id` property when the incoming `properties`
dict has no `id` key. -/
theorem getProp_nodeSet_id (n : Node) (ps : Props)
    (hid : getProp n.properties "id" = none) :
    getProp (nodeSet n ps) "id" = getProp ps "id" := by
  rw [getProp_nodeSet, nodeActs, applyBinds_cons, applyBinds_cons]
  norm_num
  exact applyBinds_of_getProp_none n.properties "id" _ hid

/-- Maps agreeing on every key (Neo4j properties are unordered; the list
order of the embedding is an artifact). -/

theorem PropsEq.refl (ps : Props) : PropsEq ps ps := fun _ => rfl

/-- Stores with the same relationships and pointwise-equal node maps. -/

theorem forall₂_propsEq_refl (l : List Props) : List.Forall₂ PropsEq l l := by
  induction l with
  | nil => constructor
  | cons x xs ih => exact List.Forall₂.cons (PropsEq.refl x) ih

theorem find?_updFirst (p : α → Bool) (f : α → α) (l : List α)
    (hpf : ∀ x, p x → p (f x)) :
    (updFirst p f l).find? p = (l.find? p).map f := by
  induction l with
  | nil => rfl
  | cons x xs ih =>
    by_cases hx : p x
    · simp [updFirst, hx, List.find?_cons, hpf x hx]
    · simp [updFirst, hx, List.find?_cons, ih]

theorem any_updFirst (p : α → Bool) (f : α → α) (l : List α)
    (hpf : ∀ x, p x → p (f x)) (h : l.any p) : (updFirst p f l).any p := by
  induction l with
  | nil => simp at h
  | cons x xs ih =>
    by_cases hx : p x
    · simp [updFirst, hx, hpf x hx]
    · simp only [List.any_cons, Bool.or_eq_true] at h
      rcases h with h | h
      · exact absurd h hx
      · simp [updFirst, hx, ih h]

theorem updFirst_twice (p : Props → Bool) (f : Props → Props)
    (hpf : ∀ x, p x → p (f x)) (hff : ∀ x, PropsEq (f (f x)) (f x)) (l : List Props) :
    List.Forall₂ PropsEq (updFirst p f (updFirst p f l)) (updFirst p f l) := by
  induction l with
  | nil => constructor
  | cons x xs ih =>
    by_cases hx : p x
    · simp only [updFirst, hx, if_pos, hpf x hx]
      exact List.Forall₂.cons (hff x) (forall₂_propsEq_refl xs)
    · simp only [updFirst, hx, if_neg, Bool.false_eq_true, if_false]
      exact List.Forall₂.cons (PropsEq.refl x) ih

theorem updFirst_append_of_not_any (p : α → Bool) (f : α → α) (l : List α) (x : α)
    (h : ¬ l.any p) : updFirst p f (l ++ [x]) = l ++ updFirst p f [x] := by
  induction l with
  | nil => rfl
  | cons y ys ih =>
    simp only [List.any_cons, Bool.or_eq_true, not_or] at h
    have hy : ¬ p y := by simpa using h.1
    simp [updFirst, hy, ih h.2]

theorem find?_append_of_none {p : α → Bool} {l1 : List α} (l2 : List α)
    (h : l1.find? p = none) : (l1 ++ l2).find? p = l2.find? p := by
  induction l1 with
  | nil => rfl
  | cons x xs ih =>
    rw [List.find?_cons] at h
    by_cases hx : p x
    · simp [hx] at h
    · simp only [List.cons_append, List.find?_cons, hx, Bool.false_eq_true, if_false] at h ⊢
      exact ih h

theorem forall₂_append_propsEq {l1 l2 u1 u2 : List Props}
    (h1 : List.Forall₂ PropsEq l1 l2) (h2 : List.Forall₂ PropsEq u1 u2) :
    List.Forall₂ PropsEq (l1 ++ u1) (l2 ++ u2) := by
  induction h1 with
  | nil => exact h2
  | cons hx hxs ih => exact List.Forall₂.cons hx ih

theorem upsert_node_idem (s : Store) (n : Node)
    (hid : getProp n.properties "id" = none) :
    StoreEq (upsert_node (upsert_node s n) n) (upsert_node s n) := by
  have hpf : ∀ x : Props, getProp x "id" = some (Val.s n.id) →
      getProp (nodeSet n x) "id" = some (Val.s n.id) := by
    intro x hx
    rw [getProp_nodeSet_id n x hid, hx]
  have hpfb : ∀ x : Props, (fun ps => decide (getProp ps "id" = some (Val.s n.id))) x = true →
      (fun ps => decide (getProp ps "id" = some (Val.s n.id))) (nodeSet n x) = true := by
    intro x hx
    simp only [decide_eq_true_eq] at hx ⊢
    exact hpf x hx
  by_cases hany : s.nodes.any (fun ps => getProp ps "id" = some (Val.s n.id))
  · have h1 : upsert_node s n =
        { s with nodes := updFirst (fun ps => getProp ps "id" = some (Val.s n.id)) (nodeSet n) s.nodes } := by
      simp only [upsert_node, hany, if_pos]
    have hany2 : (updFirst (fun ps => getProp ps "id" = some (Val.s n.id)) (nodeSet n) s.nodes).any
        (fun ps => getProp ps "id" = some (Val.s n.id)) := any_updFirst _ _ _ hpfb hany
    have h2 : upsert_node (upsert_node s n) n =
        { s with nodes := (updFirst (fun ps => getProp ps "id" = some (Val.s n.id)) (nodeSet n)
            (updFirst (fun ps => getProp ps "id" = some (Val.s n.id)) (nodeSet n) s.nodes)) } := by
      rw [h1]
      simp only [upsert_node, hany2, if_pos]
    rw [h2, h1]
    exact ⟨updFirst_twice _ _ hpfb (fun x k => getProp_nodeSet_idem n x k) s.nodes, rfl⟩
  · have h1 : upsert_node s n = { s with nodes := s.nodes ++ [nodeSet n [("id", Val.s n.id)]] } := by
      simp only [upsert_node, hany, Bool.false_eq_true, if_false]
    have hbase : getProp (nodeSet n [("id", Val.s n.id)]) "id" = some (Val.s n.id) := by
      rw [getProp_nodeSet_id n _ hid, getProp_cons]
      simp
    have hany2 : (s.nodes ++ [nodeSet n [("id", Val.s n.id)]]).any
        (fun ps => getProp ps "id" = some (Val.s n.id)) := by
      simp [List.any_append, hbase]
    have h2 : upsert_node (upsert_node s n) n =
        { s with nodes := (updFirst (fun ps => getProp ps "id" = some (Val.s n.id)) (nodeSet n)
            (s.nodes ++ [nodeSet n [("id", Val.s n.id)]])) } := by
      rw [h1]
      simp only [upsert_node, hany2, if_pos]
    rw [h2, h1, updFirst_append_of_not_any _ _ _ _ hany]
    refine ⟨forall₂_append_propsEq (forall₂_propsEq_refl s.nodes) ?_, rfl⟩
    have hb : (fun ps => decide (getProp ps "id" = some (Val.s n.id))) (nodeSet n [("id", Val.s n.id)]) = true := by
      simp only [decide_eq_true_eq]
      exact hbase
    simp only [updFirst, hb, if_pos]
    exact List.Forall₂.cons (fun k => getProp_nodeSet_idem n _ k) List.Forall₂.nil

theorem get_node_upsert_node (s : Store) (n : Node)
    (hid : getProp n.properties "id" = none) :
    ∃ ps0, get_node (upsert_node s n) n.id = some (nodeSet n ps0) ∧
      (get_node s n.id = some ps0 ∨ (get_node s n.id = none ∧ ps0 = [("id", Val.s n.id)])) := by
  have hpfb : ∀ x : Props, (fun ps => decide (getProp ps "id" = some (Val.s n.id))) x = true →
      (fun ps => decide (getProp ps "id" = some (Val.s n.id))) (nodeSet n x) = true := by
    intro x hx
    simp only [decide_eq_true_eq] at hx ⊢
    rw [getProp_nodeSet_id n x hid, hx]
  by_cases hany : s.nodes.any (fun ps => getProp ps "id" = some (Val.s n.id))
  · obtain ⟨ps0, hfind⟩ : ∃ ps0,
        s.nodes.find? (fun ps => getProp ps "id" = some (Val.s n.id)) = some ps0 := by
      obtain ⟨x, hmem, hx⟩ := List.any_eq_true.mp hany
      have : (s.nodes.find? (fun ps => getProp ps "id" = some (Val.s n.id))).isSome :=
        List.find?_isSome.mpr ⟨x, hmem, hx⟩
      exact Option.isSome_iff_exists.mp this
    refine ⟨ps0, ?_, Or.inl hfind⟩
    show (upsert_node s n).nodes.find? _ = _
    simp only [upsert_node, hany, if_pos]
    rw [find?_updFirst _ _ _ hpfb, hfind]
    rfl
  · have hfn : s.nodes.find? (fun ps => getProp ps "id" = some (Val.s n.id)) = none := by
      rw [List.find?_eq_none]
      intro x hmem hx
      exact hany (List.any_eq_true.mpr ⟨x, hmem, hx⟩)
    have hbase : getProp (nodeSet n [("id", Val.s n.id)]) "id" = some (Val.s n.id) := by
      rw [getProp_nodeSet_id n _ hid, getProp_cons]
      simp
    refine ⟨[("id", Val.s n.id)], ?_, Or.inr ⟨hfn, rfl⟩⟩
    show (upsert_node s n).nodes.find? _ = _
    simp only [upsert_node, hany, Bool.false_eq_true, if_false]
    rw [find?_append_of_none _ hfn, List.find?_cons]
    simp [hbase]

theorem getProp_edgeSet (e : Edge) (er : EdgeRec) (k : String) :
    getProp (edgeSet e er).props k = applyBinds (edgeActs e) k (getProp er.props k) := by
  show getProp (addProps er.props (edgeActs e)) k = _
  rw [getProp_addProps]

theorem length_updFirst (p : α → Bool) (f : α → α) (l : List α) :
    (updFirst p f l).length = l.length := by
  induction l with
  | nil => rfl
  | cons x xs ih =>
    by_cases hx : p x <;> simp [updFirst, hx, ih]


/-! ## Claim C4 -/

/-- C4: `upsert_node` merges properties key-by-key when a node with the
same id exists — incoming keys overwrite (a `null` incoming value is
excluded: Neo4j `+=` deletes the key for it), stored keys absent from
the incoming properties (and distinct from the always-rewritten `type`
and `name`) are preserved — and applying the call twice with identical
input yields the same stored state (property maps compared pointwise,
as Neo4j maps are unordered).  The incoming properties dict may not
carry an `id` key (a dict never repeats keys, and an `id` binding would
redirect the MERGE key itself). -/
theorem C4_upsert_node_merge_idempotent (s : Store) (n : Node)
    (hid : getProp n.properties "id" = none)
    (hnd : (n.properties.map Prod.fst).Nodup) :
    ((get_node s n.id).isSome →
      ∃ ps0, get_node s n.id = some ps0 ∧
        get_node (upsert_node s n) n.id = some (nodeSet n ps0) ∧
        (∀ k v, getProp n.properties k = some v → v ≠ Val.null →
          getProp (nodeSet n ps0) k = some v) ∧
        (∀ k, getProp n.properties k = none → k ≠ "type" → k ≠ "name" →
          getProp (nodeSet n ps0) k = getProp ps0 k)) ∧
    StoreEq (upsert_node (upsert_node s n) n) (upsert_node s n) := by
  constructor
  · intro hex
    obtain ⟨ps0, hup, hca⟩ := get_node_upsert_node s n hid
    rcases hca with hca | ⟨hnone, _⟩
    · refine ⟨ps0, hca, hup, ?_, ?_⟩
      · intro k v hk hv
        rw [getProp_nodeSet, nodeActs, applyBinds_cons, applyBinds_cons]
        exact (applyBinds_of_getProp_some n.properties k v _ hnd hk).trans (propVal_of_ne v hv)
      · intro k hk ht hn
        rw [getProp_nodeSet, nodeActs, applyBinds_cons, applyBinds_cons,
          applyBinds_of_getProp_none n.properties k _ hk]
        have h1 : ¬ ("type" : String) = k := fun h => ht h.symm
        have h2 : ¬ ("name" : String) = k := fun h => hn h.symm
        simp [h1, h2]
    · rw [hnone] at hex
      simp at hex
  · exact upsert_node_idem s n hid

/-- C4 witness: the merge-and-idempotence theorem applied to a concrete
store and a concrete partial re-upsert. -/
theorem C4_witness :
    getProp c4Node.properties "id" = none ∧
    (c4Node.properties.map Prod.fst).Nodup ∧
    (((get_node c4Store c4Node.id).isSome →
      ∃ ps0, get_node c4Store c4Node.id = some ps0 ∧
        get_node (upsert_node c4Store c4Node) c4Node.id = some (nodeSet c4Node ps0) ∧
        (∀ k v, getProp c4Node.properties k = some v → v ≠ Val.null →
          getProp (nodeSet c4Node ps0) k = some v) ∧
        (∀ k, getProp c4Node.properties k = none → k ≠ "type" → k ≠ "name" →
          getProp (nodeSet c4Node ps0) k = getProp ps0 k)) ∧
    StoreEq (upsert_node (upsert_node c4Store c4Node) c4Node) (upsert_node c4Store c4Node)) :=
  ⟨by decide, by decide, C4_upsert_node_merge_idempotent c4Store c4Node (by decide) (by decide)⟩

/-! ## Claim C5 -/

/-- C5 counterexample: the claim says `type` and `name` are immutable
once a node is created, but `upsert_node` runs
`SET n.type = $type, n.name = $name` on every call: re-upserting id
`service:x` with type `database` and name `y` overwrites both. -/
theorem C5_counterexample :
    getProp ((get_node c5Store "service:x").getD []) "type" = some (Val.s "service") ∧
    getProp ((get_node c5Store "service:x").getD []) "name" = some (Val.s "x") ∧
    getProp ((get_node (upsert_node c5Store c5Node) "service:x").getD []) "type" = some (Val.s "database") ∧
    getProp ((get_node (upsert_node c5Store c5Node) "service:x").getD []) "name" = some (Val.s "y") := by
  decide

/-- C5 amended: far from being immutable, the stored `type` and `name`
are rewritten to the incoming node's values by every `upsert_node` call
with that id (stated for incoming properties without pathological
`id`/`type`/`name` keys, which would additionally override them). -/
theorem C5_amended_type_name_mutable (s : Store) (n : Node)
    (hid : getProp n.properties "id" = none)
    (htype : getProp n.properties "type" = none)
    (hname : getProp n.properties "name" = none) :
    ∃ nd, get_node (upsert_node s n) n.id = some nd ∧
      getProp nd "type" = some (Val.s n.type) ∧ getProp nd "name" = some (Val.s n.name) := by
  obtain ⟨ps0, hup, _⟩ := get_node_upsert_node s n hid
  refine ⟨nodeSet n ps0, hup, ?_, ?_⟩
  · rw [getProp_nodeSet, nodeActs, applyBinds_cons, applyBinds_cons,
      applyBinds_of_getProp_none n.properties _ _ htype]
    have hnt : ¬ ("name" : String) = "type" := by decide
    simp [hnt, propVal]
  · rw [getProp_nodeSet, nodeActs, applyBinds_cons, applyBinds_cons,
      applyBinds_of_getProp_none n.properties _ _ hname]
    simp [propVal]

/-- C5 witness: the amended theorem applied to the concrete fixture. -/
theorem C5_witness :
    getProp c5Node.properties "id" = none ∧
    getProp c5Node.properties "type" = none ∧
    getProp c5Node.properties "name" = none ∧
    (∃ nd, get_node (upsert_node c5Store c5Node) c5Node.id = some nd ∧
      getProp nd "type" = some (Val.s c5Node.type) ∧
      getProp nd "name" = some (Val.s c5Node.name)) :=
  ⟨by decide, by decide, by decide,
    C5_amended_type_name_mutable c5Store c5Node (by decide) (by decide) (by decide)⟩

/-! ## Claim C3 -/

/-- C3 counterexample: the claim says `upsert_edge` on an existing edge
id is a no-op, but the query runs `SET r.type = $type, r += $properties`
on the matched relationship: re-upserting id `e1` changes its stored
type from `calls` to `owns` and adds the new property `y`. -/
theorem C3_counterexample :
    c3Store1.edges.map (fun er => getProp er.props "type") = [some (Val.s "calls")] ∧
    c3Store2.edges.map (fun er => getProp er.props "type") = [some (Val.s "owns")] ∧
    c3Store1.edges.map (fun er => getProp er.props "y") = [none] ∧
    c3Store2.edges.map (fun er => getProp er.props "y") = [some (Val.i 2)] := by
  decide

/-- C3 amended: first-write-wins holds only for the connector-local
dedup `_add_edge` (an edge whose id is already in the batch is ignored);
the store's `upsert_edge`, matched on (source, target, id), updates the
relationship in place — no new edge is created, source and target are
kept, but the stored type is overwritten and the properties are merged
key-by-key exactly as node upsert merges them. -/
theorem C3_amended_upsert_edge_updates (s : Store) (e : Edge)
    (hm : s.edges.any (edgeMatches e))
    (hsrc : (get_node s e.source).isSome) (htgt : (get_node s e.target).isSome)
    (hid : getProp e.properties "id" = none)
    (htype : getProp e.properties "type" = none)
    (hnd : (e.properties.map Prod.fst).Nodup) :
    (upsert_edge s e).nodes = s.nodes ∧
    (upsert_edge s e).edges.length = s.edges.length ∧
    (∃ er, s.edges.find? (edgeMatches e) = some er ∧
      (upsert_edge s e).edges.find? (edgeMatches e) = some (edgeSet e er) ∧
      (edgeSet e er).src = er.src ∧ (edgeSet e er).tgt = er.tgt ∧
      getProp (edgeSet e er).props "type" = some (Val.s e.type) ∧
      (∀ k v, getProp e.properties k = some v → v ≠ Val.null →
        getProp (edgeSet e er).props k = some v) ∧
      (∀ k, getProp e.properties k = none → k ≠ "type" →
        getProp (edgeSet e er).props k = getProp er.props k)) ∧
    (∀ (es : List Edge) (x : Edge), es.any (fun y => y.id = x.id) → add_edge es x = es) := by
  have hup : upsert_edge s e = { s with edges := updFirst (edgeMatches e) (edgeSet e) s.edges } := by
    unfold upsert_edge
    rw [if_pos, if_pos hm]
    simp [hsrc, htgt]
  have hpf : ∀ er, edgeMatches e er → edgeMatches e (edgeSet e er) := by
    intro er her
    simp only [edgeMatches, Bool.and_eq_true, decide_eq_true_eq] at her ⊢
    refine ⟨her.1, ?_⟩
    rw [getProp_edgeSet, edgeActs, applyBinds_cons,
      applyBinds_of_getProp_none e.properties _ _ hid]
    have : ¬ ("type" : String) = "id" := by decide
    simp [this, her.2]
  obtain ⟨er, hfind⟩ : ∃ er, s.edges.find? (edgeMatches e) = some er := by
    obtain ⟨x, hmem, hx⟩ := List.any_eq_true.mp hm
    exact Option.isSome_iff_exists.mp (List.find?_isSome.mpr ⟨x, hmem, hx⟩)
  refine ⟨by rw [hup], by rw [hup]; exact length_updFirst _ _ _,
    ⟨er, hfind, ?_, rfl, rfl, ?_, ?_, ?_⟩, ?_⟩
  · rw [hup]
    show (updFirst (edgeMatches e) (edgeSet e) s.edges).find? (edgeMatches e) = _
    rw [find?_updFirst _ _ _ hpf, hfind]
    rfl
  · rw [getProp_edgeSet, edgeActs, applyBinds_cons,
      applyBinds_of_getProp_none e.properties _ _ htype]
    simp [propVal]
  · intro k v hk hv
    rw [getProp_edgeSet, edgeActs, applyBinds_cons]
    exact (applyBinds_of_getProp_some e.properties k v _ hnd hk).trans (propVal_of_ne v hv)
  · intro k hk ht
    rw [getProp_edgeSet, edgeActs, applyBinds_cons,
      applyBinds_of_getProp_none e.properties k _ hk]
    have h1 : ¬ ("type" : String) = k := fun h => ht h.symm
    simp [h1]
  · intro es x h
    simp [add_edge, h]

/-- C3 witness: the amended theorem applied to the concrete store
`c3Store1` and the re-upserted edge `c3Edge2`. -/
theorem C3_witness :
    c3Store1.edges.any (edgeMatches c3Edge2) ∧
    (get_node c3Store1 c3Edge2.source).isSome ∧
    (get_node c3Store1 c3Edge2.target).isSome ∧
    getProp c3Edge2.properties "id" = none ∧
    getProp c3Edge2.properties "type" = none ∧
    (c3Edge2.properties.map Prod.fst).Nodup ∧
    ((upsert_edge c3Store1 c3Edge2).nodes = c3Store1.nodes ∧
    (upsert_edge c3Store1 c3Edge2).edges.length = c3Store1.edges.length ∧
    (∃ er, c3Store1.edges.find? (edgeMatches c3Edge2) = some er ∧
      (upsert_edge c3Store1 c3Edge2).edges.find? (edgeMatches c3Edge2) = some (edgeSet c3Edge2 er) ∧
      (edgeSet c3Edge2 er).src = er.src ∧ (edgeSet c3Edge2 er).tgt = er.tgt ∧
      getProp (edgeSet c3Edge2 er).props "type" = some (Val.s c3Edge2.type) ∧
      (∀ k v, getProp c3Edge2.properties k = some v → v ≠ Val.null →
        getProp (edgeSet c3Edge2 er).props k = some v) ∧
      (∀ k, getProp c3Edge2.properties k = none → k ≠ "type" →
        getProp (edgeSet c3Edge2 er).props k = getProp er.props k)) ∧
    (∀ (es : List Edge) (x : Edge), es.any (fun y => y.id = x.id) → add_edge es x = es)) :=
  ⟨by decide, by decide, by decide, by decide, by decide, by decide,
    C3_amended_upsert_edge_updates c3Store1 c3Edge2 (by decide) (by decide) (by decide)
      (by decide) (by decide) (by decide)⟩

/-! ## Claim C10 -/

/-- C10: `upsert_edge` with an edge whose source or target id matches no
stored node is a silent no-op — the MATCH clauses yield no row, so no
edge is created, nothing is raised, and the store is unchanged.  In
particular a raw `owns` edge carrying an unresolved free-text target,
upserted directly as `load_graph` does (the resolution pass is never
invoked), is silently discarded. -/
theorem C10_upsert_edge_silent_noop (s : Store) (e : Edge)
    (h : get_node s e.source = none ∨ get_node s e.target = none) :
    upsert_edge s e = s := by
  unfold upsert_edge
  rcases h with h | h <;> simp [h]

/-- C10 witness: the no-op theorem applied to a store holding only the
team node and to the raw `owns` edge teams.py builds for the declared
string `payments-api`, which matches no node id. -/
theorem C10_witness :
    (get_node c10Store c10Edge.source = none ∨ get_node c10Store c10Edge.target = none) ∧
    upsert_edge c10Store c10Edge = c10Store :=
  ⟨by decide, C10_upsert_edge_silent_noop c10Store c10Edge (by decide)⟩


/-! ## Claim C8 -/

/-- Membership in the row set of the `get_owner` Cypher query. -/
theorem ownerRows_mem (s : Store) (x : String) (nd : Props) :
    nd ∈ ownerRows s x ↔
      ∃ e ∈ s.edges, e.tgt = x ∧ getProp e.props "type" = some (Val.s "owns") ∧
        get_node s e.src = some nd ∧ getProp nd "type" = some (Val.s "team") := by
  unfold ownerRows
  rw [List.mem_filterMap]
  constructor
  · rintro ⟨e, hmem, hf⟩
    refine ⟨e, hmem, ?_⟩
    by_cases hc : (decide (e.tgt = x) && decide (getProp e.props "type" = some (Val.s "owns"))) = true
    · rw [if_pos hc] at hf
      cases hnode : get_node s e.src with
      | none =>
        rw [hnode] at hf
        simp at hf
      | some nd2 =>
        rw [hnode] at hf
        by_cases ht : getProp nd2 "type" = some (Val.s "team")
        · simp only [ht, if_true] at hf
          injection hf with hf
          subst hf
          simp only [Bool.and_eq_true, decide_eq_true_eq] at hc
          exact ⟨hc.1, hc.2, rfl, ht⟩
        · simp [ht] at hf
    · rw [if_neg hc] at hf
      exact absurd hf (by simp)
  · rintro ⟨e, hmem, htgt, howns, hnode, hteam⟩
    refine ⟨e, hmem, ?_⟩
    have hc : (decide (e.tgt = x) && decide (getProp e.props "type" = some (Val.s "owns"))) = true := by
      simp [htgt, howns]
    rw [if_pos hc, hnode]
    simp [hteam]

/-- C8 counterexample: with two teams owning `service:x` the claim says
the call surfaces AmbiguousOwner, but `get_owner` runs the driver call
`result.single()`, which returns the first record (emitting only a
warning): the call silently returns team `t1`. -/
theorem C8_counterexample :
    (ownerRows c8Store "service:x").length = 2 ∧
    get_owner c8Store "service:x" =
      some [("id", Val.s "team:t1"), ("type", Val.s "team"), ("name", Val.s "t1")] := by
  decide

/-- C8 amended: `get_owner` returns a team node having an `owns` edge
into the queried id whenever one exists (the first row in result order
when several do — no AmbiguousOwner condition exists in the code), and
nothing exactly when no owning team exists. -/
theorem C8_amended_get_owner_first (s : Store) (x : String) :
    (∀ nd, get_owner s x = some nd →
      ∃ e ∈ s.edges, e.tgt = x ∧ getProp e.props "type" = some (Val.s "owns") ∧
        get_node s e.src = some nd ∧ getProp nd "type" = some (Val.s "team")) ∧
    (get_owner s x = none ↔
      ∀ e ∈ s.edges, e.tgt = x → getProp e.props "type" = some (Val.s "owns") →
        ∀ nd, get_node s e.src = some nd → getProp nd "type" ≠ some (Val.s "team")) := by
  constructor
  · intro nd h
    have hmem : nd ∈ ownerRows s x := by
      unfold get_owner at h
      cases hrows : ownerRows s x with
      | nil => rw [hrows] at h; simp at h
      | cons a l =>
        rw [hrows] at h
        simp only [List.head?_cons] at h
        injection h with h
        subst h
        exact List.mem_cons_self a l
    exact (ownerRows_mem s x nd).mp hmem
  · unfold get_owner
    rw [List.head?_eq_none_iff, List.eq_nil_iff_forall_not_mem]
    constructor
    · intro hall e hmem htgt howns nd hnode hteam
      exact hall nd ((ownerRows_mem s x nd).mpr ⟨e, hmem, htgt, howns, hnode, hteam⟩)
    · intro hall nd hmem
      obtain ⟨e, hmem2, htgt, howns, hnode, hteam⟩ := (ownerRows_mem s x nd).mp hmem
      exact hall e hmem2 htgt howns nd hnode hteam

/-- C8 witness: the amended theorem applied to the single-owner store,
with the returned team computed explicitly. -/
theorem C8_witness :
    get_owner c8bStore "service:x" =
      some [("id", Val.s "team:t1"), ("type", Val.s "team"), ("name", Val.s "t1")] ∧
    (∃ e ∈ c8bStore.edges, e.tgt = "service:x" ∧ getProp e.props "type" = some (Val.s "owns") ∧
      get_node c8bStore e.src =
        some [("id", Val.s "team:t1"), ("type", Val.s "team"), ("name", Val.s "t1")] ∧
      getProp [("id", Val.s "team:t1"), ("type", Val.s "team"), ("name", Val.s "t1")] "type" =
        some (Val.s "team")) :=
  ⟨by decide, (C8_amended_get_owner_first c8bStore "service:x").1 _ (by decide)⟩


/-! ## Claim C6 -/

theorem stepNexts_mem (es : List EdgeRec) (S : List String) (b : String) :
    b ∈ stepNexts es S ↔ ∃ e ∈ es, e.src ∈ S ∧ e.tgt = b := by
  unfold stepNexts
  rw [List.mem_filterMap]
  constructor
  · rintro ⟨e, hmem, hf⟩
    by_cases hc : S.contains e.src
    · rw [if_pos hc] at hf
      injection hf with hf
      exact ⟨e, hmem, by simpa using hc, hf⟩
    · rw [if_neg hc] at hf
      simp at hf
  · rintro ⟨e, hmem, hsrc, htgt⟩
    refine ⟨e, hmem, ?_⟩
    rw [if_pos (by simpa using hsrc)]
    rw [htgt]

theorem walkEnds_mem (es : List EdgeRec) (a : String) (k : Nat) (b : String) :
    b ∈ walkEnds es a k ↔ DirWalk es a b k := by
  induction k generalizing b with
  | zero =>
    constructor
    · intro h
      simp only [walkEnds, List.mem_singleton] at h
      subst h
      exact DirWalk.refl _
    · intro h
      cases h
      simp [walkEnds]
  | succ k ih =>
    rw [show walkEnds es a (k + 1) = stepNexts es (walkEnds es a k) from rfl, stepNexts_mem]
    constructor
    · rintro ⟨e, hmem, hsrc, htgt⟩
      subst htgt
      exact DirWalk.step ((ih e.src).mp hsrc) ⟨e, hmem, rfl, rfl⟩
    · intro h
      cases h with
      | step hw he =>
        obtain ⟨e, hmem, hsrc, htgt⟩ := he
        refine ⟨e, hmem, (ih e.src).mpr ?_, htgt⟩
        rw [hsrc]
        exact hw

theorem mem_foldr_append {α β : Type} (f : β → List α) (l : List β) (x : α) :
    x ∈ l.foldr (fun b acc => f b ++ acc) [] ↔ ∃ b ∈ l, x ∈ f b := by
  induction l with
  | nil => simp
  | cons b l ih => simp [ih]

theorem reachIds_mem (es : List EdgeRec) (a : String) (d : Nat) (i : String) :
    i ∈ reachIds es a d ↔ ∃ k, 1 ≤ k ∧ k ≤ d ∧ DirWalk es a i k := by
  unfold reachIds
  rw [mem_foldr_append]
  constructor
  · rintro ⟨j, hj, hi⟩
    exact ⟨j + 1, Nat.succ_le_succ (Nat.zero_le j),
      Nat.succ_le_of_lt (List.mem_range.mp hj), (walkEnds_mem es a (j + 1) i).mp hi⟩
  · rintro ⟨k, hk1, hkd, hw⟩
    cases k with
    | zero => exact absurd hk1 (by omega)
    | succ j =>
      exact ⟨j, List.mem_range.mpr (by omega), (walkEnds_mem es a (j + 1) i).mpr hw⟩

theorem downstream_mem (s : Store) (a : String) (nd : Props) :
    nd ∈ downstream s a ↔
      nd ∈ s.nodes ∧ ∃ i k, getProp nd "id" = some (Val.s i) ∧
        1 ≤ k ∧ k ≤ 10 ∧ DirWalk s.edges a i k := by
  unfold downstream
  rw [List.mem_filter]
  refine and_congr_right (fun _ => ?_)
  rw [List.any_eq_true]
  constructor
  · rintro ⟨i, hi, hid⟩
    obtain ⟨k, hk1, hkd, hw⟩ := (reachIds_mem s.edges a 10 i).mp hi
    exact ⟨i, k, by simpa using hid, hk1, hkd, hw⟩
  · rintro ⟨i, k, hid, hk1, hkd, hw⟩
    exact ⟨i, (reachIds_mem s.edges a 10 i).mpr ⟨k, hk1, hkd, hw⟩, by simpa using hid⟩

theorem dirWalk_front (es : List EdgeRec) (a b c : String) (k : Nat)
    (he : ∃ e ∈ es, e.src = a ∧ e.tgt = b) (hw : DirWalk es b c k) :
    DirWalk es a c (k + 1) := by
  induction hw with
  | refl => exact DirWalk.step (DirWalk.refl a) he
  | step hw2 he2 ih => exact DirWalk.step ih he2

theorem flipEdges_flipEdges (es : List EdgeRec) : flipEdges (flipEdges es) = es := by
  unfold flipEdges
  rw [List.map_map]
  have h : ((fun e : EdgeRec => (⟨e.tgt, e.src, e.props⟩ : EdgeRec)) ∘
      fun e : EdgeRec => (⟨e.tgt, e.src, e.props⟩ : EdgeRec)) = id := by
    funext e
    rfl
  rw [h, List.map_id]

theorem dirWalk_flip (es : List EdgeRec) (a b : String) (k : Nat)
    (h : DirWalk (flipEdges es) a b k) : DirWalk es b a k := by
  induction h with
  | refl => exact DirWalk.refl _
  | step hw he ih =>
    obtain ⟨e, hmem, hsrc, htgt⟩ := he
    rw [flipEdges, List.mem_map] at hmem
    obtain ⟨e0, hmem0, rfl⟩ := hmem
    exact dirWalk_front es _ _ _ _ ⟨e0, hmem0, by simpa using htgt, by simpa using hsrc⟩ ih

theorem dirWalk_flip_iff (es : List EdgeRec) (a b : String) (k : Nat) :
    DirWalk (flipEdges es) a b k ↔ DirWalk es b a k := by
  constructor
  · exact dirWalk_flip es a b k
  · intro h
    have h2 : DirWalk (flipEdges (flipEdges es)) b a k := by
      rw [flipEdges_flipEdges]
      exact h
    exact dirWalk_flip (flipEdges es) b a k h2

theorem upstream_mem (s : Store) (a : String) (nd : Props) :
    nd ∈ upstream s a ↔
      nd ∈ s.nodes ∧ ∃ i k, getProp nd "id" = some (Val.s i) ∧
        1 ≤ k ∧ k ≤ 10 ∧ DirWalk s.edges i a k := by
  unfold upstream
  rw [List.mem_filter]
  refine and_congr_right (fun _ => ?_)
  rw [List.any_eq_true]
  constructor
  · rintro ⟨i, hi, hid⟩
    obtain ⟨k, hk1, hkd, hw⟩ := (reachIds_mem (flipEdges s.edges) a 10 i).mp hi
    exact ⟨i, k, by simpa using hid, hk1, hkd, (dirWalk_flip_iff s.edges a i k).mp hw⟩
  · rintro ⟨i, k, hid, hk1, hkd, hw⟩
    exact ⟨i, (reachIds_mem (flipEdges s.edges) a 10 i).mpr
      ⟨k, hk1, hkd, (dirWalk_flip_iff s.edges a i k).mpr hw⟩, by simpa using hid⟩

/-- C6 counterexample: two failures of the claim as stated.  First, the
claim says `downstream` excludes the start node even when a cycle leads
back to it, but the Cypher pattern `(start)-[r:EDGE*1..10]->(downstream)`
admits `downstream = start`: on the two-node cycle A→B→A the start node
A is in its own downstream result.  Second, on the scenario fixture the
claim says `upstream(C) = {A, B}`, but the traversal follows every
relationship type, so team T (T owns A, A calls B, B calls C) is also
upstream of C. -/
theorem C6_counterexample :
    (downstream cycStore "service:a").map (fun nd => getProp nd "id") =
      [some (Val.s "service:a"), some (Val.s "service:b")] ∧
    (upstream c6Store "service:c").map (fun nd => getProp nd "id") =
      [some (Val.s "service:a"), some (Val.s "service:b"), some (Val.s "team:t")] := by
  decide

/-- C6 amended: `downstream(id)` (with its default `edge_types=None`)
returns exactly the stored nodes whose id is reachable from `id` by a
directed walk of 1 to 10 hops — the start node itself included whenever
a cycle of at most 10 hops returns to it — and `upstream` is the same
with every edge reversed.  Ownership edges are traversed like any
other: on the scenario fixture A→B→C with T owning A,
`downstream(A) = {B, C}` but `upstream(C) = {A, B, T}`. -/
theorem C6_amended_downstream_upstream :
    (∀ (s : Store) (a : String) (nd : Props),
      (nd ∈ downstream s a ↔
        nd ∈ s.nodes ∧ ∃ i k, getProp nd "id" = some (Val.s i) ∧
          1 ≤ k ∧ k ≤ 10 ∧ DirWalk s.edges a i k) ∧
      (nd ∈ upstream s a ↔
        nd ∈ s.nodes ∧ ∃ i k, getProp nd "id" = some (Val.s i) ∧
          1 ≤ k ∧ k ≤ 10 ∧ DirWalk s.edges i a k)) ∧
    (downstream c6Store "service:a").map (fun nd => getProp nd "id") =
      [some (Val.s "service:b"), some (Val.s "service:c")] ∧
    (upstream c6Store "service:c").map (fun nd => getProp nd "id") =
      [some (Val.s "service:a"), some (Val.s "service:b"), some (Val.s "team:t")] :=
  ⟨fun s a nd => ⟨downstream_mem s a nd, upstream_mem s a nd⟩, by decide, by decide⟩


/-! ## Claim C7 -/

theorem getIdStr_eq_some (nd : Props) (i : String) :
    getIdStr nd = some i ↔ getProp nd "id" = some (Val.s i) := by
  unfold getIdStr
  cases h : getProp nd "id" with
  | none => simp
  | some v => cases v <;> simp

theorem reachIds_tgt (es : List EdgeRec) (a : String) (d : Nat) (i : String)
    (h : i ∈ reachIds es a d) : ∃ e ∈ es, e.tgt = i := by
  obtain ⟨k, hk1, _, hw⟩ := (reachIds_mem es a d i).mp h
  cases hw with
  | refl => exact absurd hk1 (by omega)
  | step hw2 he =>
    obtain ⟨e, hmem, _, htgt⟩ := he
    exact ⟨e, hmem, htgt⟩

theorem mem_map_getIdStr_filter (s : Store) (R : List String)
    (hR : ∀ i ∈ R, i ∈ storeIds s) (o : Option String) :
    o ∈ (s.nodes.filter (fun nd => R.any (fun i => getProp nd "id" = some (Val.s i)))).map getIdStr ↔
      ∃ i ∈ R, o = some i := by
  rw [List.mem_map]
  constructor
  · rintro ⟨nd, hmem, ho⟩
    rw [List.mem_filter] at hmem
    obtain ⟨i, hiR, hid⟩ := List.any_eq_true.mp hmem.2
    have hid2 : getProp nd "id" = some (Val.s i) := by simpa using hid
    refine ⟨i, hiR, ?_⟩
    rw [← ho, getIdStr_eq_some nd i]
    exact hid2
  · rintro ⟨i, hiR, rfl⟩
    obtain ⟨nd, hmem, hid⟩ := List.mem_filterMap.mp (hR i hiR)
    refine ⟨nd, ?_, hid⟩
    rw [List.mem_filter]
    refine ⟨hmem, List.any_eq_true.mpr ⟨i, hiR, ?_⟩⟩
    simpa using (getIdStr_eq_some nd i).mp hid

/-- C7: `blast_radius` returns no result when the queried id is absent,
and otherwise its `total_affected` is the cardinality of the set union
of the upstream ids, the downstream ids and the queried id itself —
nodes on both sides count once. -/
theorem C7_blast_radius_total (s : Store) (x : String) (hwf : WFStore s) :
    (get_node s x = none → blast_radius s x = none) ∧
    (get_node s x ≠ none →
      ∃ r, blast_radius s x = some r ∧
        r.total_affected =
          ((reachIds (flipEdges s.edges) x 10).toFinset ∪
            (reachIds s.edges x 10).toFinset ∪ {x}).card) := by
  constructor
  · intro h
    unfold blast_radius
    rw [h]
  · intro h
    cases hnode : get_node s x with
    | none => exact absurd hnode h
    | some nd =>
      have hup : ∀ i ∈ reachIds (flipEdges s.edges) x 10, i ∈ storeIds s := by
        intro i hi
        obtain ⟨e2, hmem2, htgt2⟩ := reachIds_tgt _ _ _ _ hi
        unfold flipEdges at hmem2
        obtain ⟨e0, hmem0, rfl⟩ := List.mem_map.mp hmem2
        exact htgt2 ▸ (hwf.2.2 e0 hmem0).1
      have hdown : ∀ i ∈ reachIds s.edges x 10, i ∈ storeIds s := by
        intro i hi
        obtain ⟨e2, hmem2, htgt2⟩ := reachIds_tgt _ _ _ _ hi
        exact htgt2 ▸ (hwf.2.2 e2 hmem2).2
      refine ⟨_, by unfold blast_radius; rw [hnode], ?_⟩
      show (((upstream s x ++ downstream s x).map getIdStr).toFinset ∪ {some x}).card = _
      have hsets : ((upstream s x ++ downstream s x).map getIdStr).toFinset ∪ {some x} =
          ((reachIds (flipEdges s.edges) x 10).toFinset ∪
            (reachIds s.edges x 10).toFinset ∪ {x}).image some := by
        ext o
        rw [Finset.mem_union, Finset.mem_singleton, List.mem_toFinset, List.map_append,
          List.mem_append, Finset.mem_image]
        constructor
        · rintro ((hmem | hmem) | rfl)
          · obtain ⟨i, hiR, rfl⟩ := (mem_map_getIdStr_filter s _ hup o).mp hmem
            exact ⟨i, by simp [List.mem_toFinset, hiR], rfl⟩
          · obtain ⟨i, hiR, rfl⟩ := (mem_map_getIdStr_filter s _ hdown o).mp hmem
            exact ⟨i, by simp [List.mem_toFinset, hiR], rfl⟩
          · exact ⟨x, by simp, rfl⟩
        · rintro ⟨i, hi, rfl⟩
          simp only [Finset.mem_union, Finset.mem_singleton, List.mem_toFinset] at hi
          rcases hi with (hi | hi) | rfl
          · exact Or.inl (Or.inl ((mem_map_getIdStr_filter s _ hup _).mpr ⟨i, hi, rfl⟩))
          · exact Or.inl (Or.inr ((mem_map_getIdStr_filter s _ hdown _).mpr ⟨i, hi, rfl⟩))
          · exact Or.inr rfl
      rw [hsets, Finset.card_image_of_injective _ (Option.some_injective String)]

/-- C7 witness: the theorem applied to the scenario store at node B. -/
theorem C7_witness :
    WFStore c6Store ∧ get_node c6Store "service:b" ≠ none ∧
    (∃ r, blast_radius c6Store "service:b" = some r ∧
      r.total_affected =
        ((reachIds (flipEdges c6Store.edges) "service:b" 10).toFinset ∪
          (reachIds c6Store.edges "service:b" 10).toFinset ∪ {"service:b"}).card) :=
  ⟨⟨by decide, by decide, by decide⟩, by decide,
    (C7_blast_radius_total c6Store "service:b" ⟨by decide, by decide, by decide⟩).2 (by decide)⟩


/-! ## Claim C1 -/

theorem dinsert_mem (m : List (String × String)) (k v : String) (p : String × String)
    (h : p ∈ dinsert m k v) : p ∈ m ∨ p = (k, v) := by
  unfold dinsert at h
  by_cases hc : m.any (fun q => q.1 = k)
  · rw [if_pos hc] at h
    obtain ⟨q, hq, hf⟩ := List.mem_map.mp h
    by_cases hqk : q.1 = k
    · rw [if_pos hqk] at hf
      exact Or.inr hf.symm
    · rw [if_neg hqk] at hf
      exact Or.inl (hf ▸ hq)
  · rw [if_neg hc] at h
    rcases List.mem_append.mp h with h | h
    · exact Or.inl h
    · exact Or.inr (List.mem_singleton.mp h)

theorem foldl_buildNodeMap_mem (l : List Node) (init : List (String × String)) (p : String × String)
    (h : p ∈ l.foldl (fun m n => dinsert (dinsert m n.name n.id) n.id n.id) init) :
    p ∈ init ∨ ∃ n ∈ l, (p.1 = n.name ∨ p.1 = n.id) ∧ p.2 = n.id := by
  induction l generalizing init with
  | nil => exact Or.inl h
  | cons n l ih =>
    rcases ih _ h with hin | ⟨n2, hmem, hp⟩
    · rcases dinsert_mem _ _ _ _ hin with hin2 | rfl
      · rcases dinsert_mem _ _ _ _ hin2 with hin3 | rfl
        · exact Or.inl hin3
        · exact Or.inr ⟨n, List.mem_cons_self n l, Or.inl rfl, rfl⟩
      · exact Or.inr ⟨n, List.mem_cons_self n l, Or.inr rfl, rfl⟩
    · exact Or.inr ⟨n2, List.mem_cons_of_mem n hmem, hp⟩

/-- Every entry of the resolver's lookup dict maps a node's bare name or
full id to some node's id. -/
theorem buildNodeMap_sound (l : List Node) (p : String × String) (h : p ∈ buildNodeMap l) :
    ∃ n ∈ l, (p.1 = n.name ∨ p.1 = n.id) ∧ p.2 = n.id := by
  rcases foldl_buildNodeMap_mem l [] p h with hin | hgood
  · simp at hin
  · exact hgood

/-- C1 counterexample: with nodes `service:bbb` (name `bbb-svc`) and
`service:aaa` (name `aaa-svc`), the target `svc` matches both names,
and the lexicographically smallest candidate id is `service:aaa`; the
code resolves to `service:bbb` — the first hit in dict insertion order,
not the lexicographic minimum — and a target matching nothing is
silently dropped with no diagnostic of any kind. -/
theorem C1_counterexample :
    resolve_ownership_targets c1Nodes [teamsOwnsEdge "t" "svc"] =
      [⟨"edge:t-owns-bbb", "owns", "team:t", "service:bbb", []⟩] ∧
    fuzzyHit "svc" "aaa-svc" = true ∧
    fuzzyHit "svc" "bbb-svc" = true ∧
    "service:aaa".toList < "service:bbb".toList ∧
    resolve_ownership_targets c1Nodes [teamsOwnsEdge "t" "zzz"] = [] := by
  decide

/-- C1 amended: for a raw `owns` edge, an exact lookup of the literal
target among node names and ids rewrites the target to the found id;
otherwise the first entry of the lookup dict (over names and ids, in
insertion order) passing the containment test is taken, with a rebuilt
edge id; when no entry passes, the edge is silently dropped — the
function returns only resolved edges and records no diagnostic.  Every
lookup entry maps a node's name or id to a node's id
(`buildNodeMap_sound`). -/
theorem C1_amended_resolution (all_nodes : List Node) (e : Edge) (hty : e.type = "owns") :
    (∀ nid, dget (buildNodeMap all_nodes) e.target = some nid →
      resolve_ownership_targets all_nodes [e] = [{ e with target := nid }]) ∧
    (dget (buildNodeMap all_nodes) e.target = none →
      (∀ p ∈ buildNodeMap all_nodes, fuzzyHit e.target p.1 = false) →
        resolve_ownership_targets all_nodes [e] = []) ∧
    (dget (buildNodeMap all_nodes) e.target = none →
      ∀ p, (buildNodeMap all_nodes).find? (fun q => fuzzyHit e.target q.1) = some p →
        resolve_ownership_targets all_nodes [e] =
          [{ e with
              id := "edge:" ++ secondSeg e.source ++ "-owns-" ++ secondSeg p.2,
              target := p.2 }] ∧
        fuzzyHit e.target p.1 = true) := by
  refine ⟨?_, ?_, ?_⟩
  · intro nid hd
    simp [resolve_ownership_targets, hty, resolveOne, hd]
  · intro hd hnone
    have hf : (buildNodeMap all_nodes).find? (fun q => fuzzyHit e.target q.1) = none := by
      rw [List.find?_eq_none]
      intro p hp
      simp [hnone p hp]
    simp [resolve_ownership_targets, hty, resolveOne, hd, hf]
  · intro hd p hfind
    constructor
    · simp [resolve_ownership_targets, hty, resolveOne, hd, hfind]
    · have h2 := List.find?_some hfind
      simpa using h2

/-- C1 witness: the amended theorem's fuzzy branch applied to the
two-candidate fixture, with the chosen dict entry computed. -/
theorem C1_witness :
    (teamsOwnsEdge "t" "svc").type = "owns" ∧
    dget (buildNodeMap c1Nodes) (teamsOwnsEdge "t" "svc").target = none ∧
    (buildNodeMap c1Nodes).find? (fun q => fuzzyHit (teamsOwnsEdge "t" "svc").target q.1) =
      some ("bbb-svc", "service:bbb") ∧
    (resolve_ownership_targets c1Nodes [teamsOwnsEdge "t" "svc"] =
      [{ teamsOwnsEdge "t" "svc" with
          id := "edge:" ++ secondSeg (teamsOwnsEdge "t" "svc").source ++ "-owns-" ++
            secondSeg (("bbb-svc", "service:bbb") : String × String).2,
          target := (("bbb-svc", "service:bbb") : String × String).2 }] ∧
      fuzzyHit (teamsOwnsEdge "t" "svc").target (("bbb-svc", "service:bbb") : String × String).1 = true) :=
  ⟨rfl, by decide, by decide,
    (C1_amended_resolution c1Nodes (teamsOwnsEdge "t" "svc") rfl).2.2 (by decide)
      ("bbb-svc", "service:bbb") (by decide)⟩

/-! ## Claim C9 -/

theorem add_edge_mem (es : List Edge) (x e : Edge) (h : e ∈ add_edge es x) : e ∈ es ∨ e = x := by
  unfold add_edge at h
  by_cases hc : es.any (fun y => y.id = x.id)
  · rw [if_pos hc] at h
    exact Or.inl h
  · rw [if_neg hc] at h
    rcases List.mem_append.mp h with h | h
    · exact Or.inl h
    · exact Or.inr (List.mem_singleton.mp h)

theorem foldl_pres {β : Type} (P : Edge → Prop) (step : List Edge → β → List Edge)
    (hstep : ∀ es b e, e ∈ step es b → e ∈ es ∨ P e) (l : List β) (es0 : List Edge) (e : Edge)
    (h : e ∈ l.foldl step es0) : e ∈ es0 ∨ P e := by
  induction l generalizing es0 with
  | nil => exact Or.inl h
  | cons b l ih =>
    rcases ih (step es0 b) h with h2 | h2
    · exact hstep es0 b e h2
    · exact Or.inr h2

theorem composeUrlStep_mem (services : List (String × SvcConfig)) (name : String) (cfg : SvcConfig)
    (es : List Edge) (kv : String × String) (e : Edge)
    (h : e ∈ composeUrlStep services name cfg es kv) : e ∈ es ∨ composeTyped services e := by
  unfold composeUrlStep at h
  split at h
  · split at h
    · rename_i tname hext
      split at h
      · rename_i tcfg hget
        split at h
        · rcases add_edge_mem _ _ _ h with h2 | rfl
          · exact Or.inl h2
          · refine Or.inr ⟨tname, ?_, ?_⟩ <;> simp [hget]
        · exact Or.inl h
      · exact Or.inl h
    · exact Or.inl h
  · exact Or.inl h

theorem composeSvcEdges_mem (services : List (String × SvcConfig)) (es0 : List Edge)
    (name : String) (cfg : SvcConfig) (e : Edge)
    (h : e ∈ composeSvcEdges services es0 name cfg) : e ∈ es0 ∨ composeTyped services e := by
  unfold composeSvcEdges at h
  rcases foldl_pres (composeTyped services) _ (composeUrlStep_mem services name cfg) _ _ _ h with h2 | h2
  · rcases foldl_pres (composeTyped services)
      (fun es dep => add_edge es (composeDepEdge services name cfg dep))
      (fun es dep x hx => by
        rcases add_edge_mem _ _ _ hx with h3 | rfl
        · exact Or.inl h3
        · exact Or.inr ⟨dep, rfl, rfl⟩) _ _ _ h2 with h3 | h3
    · exact Or.inl h3
    · exact Or.inr h3
  · exact Or.inr h2

theorem composeEdges_mem (services : List (String × SvcConfig)) (e : Edge)
    (h : e ∈ composeEdges services) : composeTyped services e := by
  unfold composeEdges at h
  rcases foldl_pres (composeTyped services) _
    (fun es p x hx => composeSvcEdges_mem services es p.1 p.2 x hx) _ _ _ h with h2 | h2
  · simp at h2
  · exact h2

theorem k8sEnvEdges_mem (name : String) (env : List (String × String)) (e : Edge)
    (h : e ∈ k8sEnvEdges name env) :
    e.type = "calls" ∧ ∃ t, e.target = "service:" ++ t := by
  unfold k8sEnvEdges at h
  have hstep : ∀ (es : List Edge) (kv : String × String) (x : Edge),
      x ∈ (if strContainsStr kv.1 "_URL" && kv.2 ≠ "" then
          match _extract_service_from_k8s_url kv.2 with
          | some t =>
            if t ≠ name then
              add_edge es ⟨"edge:" ++ name ++ "-calls-" ++ t, "calls",
                "service:" ++ name, "service:" ++ t, [("via", Val.s "k8s_env")]⟩
            else es
          | none => es
        else es) → x ∈ es ∨ (x.type = "calls" ∧ ∃ t, x.target = "service:" ++ t) := by
    intro es kv x hx
    split at hx
    · split at hx
      · rename_i t hext
        split at hx
        · rcases add_edge_mem _ _ _ hx with h2 | rfl
          · exact Or.inl h2
          · exact Or.inr ⟨rfl, t, rfl⟩
        · exact Or.inl hx
      · exact Or.inl hx
    · exact Or.inl hx
  rcases foldl_pres _ _ hstep env [] e h with h2 | h2
  · simp at h2
  · exact h2

/-- C9 counterexample: the cluster-manifest connector does not share the
target-type heuristic — for a deployment `api` with
`REDIS_URL=http://redis.default:6379` it emits a `calls` edge to
`service:redis`, while the shared heuristic classifies a target named
`redis` as a cache and would require edge type `uses`. -/
theorem C9_counterexample :
    k8sEnvEdges "api" [("REDIS_URL", "http://redis.default:6379")] = [c9K8sEdge] ∧
    _infer_edge_type (_infer_node_type "redis" emptyCfg) = "uses" ∧
    c9K8sEdge.type = "calls" ∧
    ("calls" : String) ≠ "uses" := by
  decide

/-- C9 amended: every dependency edge the compose connector synthesizes
(from `depends_on` or from a `_URL` environment value) carries the type
derived from its target's inferred type — `reads_from` for database
targets, `uses` for cache targets, `calls` otherwise — and its target id
is that inferred type prefixed to the target name; the cluster-manifest
connector does not share the heuristic: every edge it synthesizes has
type `calls` and a target forced to the `service:` prefix. -/
theorem C9_amended_edge_type_heuristic :
    (∀ (services : List (String × SvcConfig)) (e : Edge), e ∈ composeEdges services →
      ∃ tname,
        e.type = _infer_edge_type (_infer_node_type tname ((svcGet services tname).getD emptyCfg)) ∧
        e.target = _infer_node_type tname ((svcGet services tname).getD emptyCfg) ++ ":" ++ tname) ∧
    (∀ (name : String) (env : List (String × String)) (e : Edge), e ∈ k8sEnvEdges name env →
      e.type = "calls" ∧ ∃ t, e.target = "service:" ++ t) :=
  ⟨fun services e h => composeEdges_mem services e h,
   fun name env e h => k8sEnvEdges_mem name env e h⟩

/-- C9 witness: the amended theorem applied to the concrete compose
fixture, whose derived edge is computed explicitly. -/
theorem C9_witness :
    composeEdges c9Services = [c9Edge] ∧ c9Edge ∈ composeEdges c9Services ∧
    (∃ tname,
      c9Edge.type = _infer_edge_type (_infer_node_type tname ((svcGet c9Services tname).getD emptyCfg)) ∧
      c9Edge.target = _infer_node_type tname ((svcGet c9Services tname).getD emptyCfg) ++ ":" ++ tname) :=
  ⟨by decide, by decide, C9_amended_edge_type_heuristic.1 c9Services c9Edge (by decide)⟩

/-! ## Claim C2 -/

theorem picks_mem {α : Type} (l : List α) (pr : α × List α) (h : pr ∈ picks l) :
    pr.1 ∈ l ∧ ∀ x ∈ pr.2, x ∈ l := by
  induction l generalizing pr with
  | nil => simp [picks] at h
  | cons x xs ih =>
    rw [picks, List.mem_cons] at h
    rcases h with rfl | h
    · exact ⟨List.mem_cons_self x xs, fun y hy => List.mem_cons_of_mem x hy⟩
    · obtain ⟨q, hq, rfl⟩ := List.mem_map.mp h
      obtain ⟨hq1, hq2⟩ := ih q hq
      refine ⟨List.mem_cons_of_mem x hq1, ?_⟩
      intro y hy
      rcases List.mem_cons.mp hy with rfl | hy
      · exact List.mem_cons_self y xs
      · exact List.mem_cons_of_mem x (hq2 y hy)

theorem undirSteps_mem (cur : String) (rem : List EdgeRec) (st : String × List EdgeRec)
    (h : st ∈ undirSteps cur rem) :
    ∃ pr ∈ picks rem, ((pr.1.src = cur ∧ pr.1.tgt = st.1) ∨ (pr.1.tgt = cur ∧ pr.1.src = st.1)) ∧
      st.2 = pr.2 := by
  unfold undirSteps at h
  revert h
  generalize picks rem = L
  induction L with
  | nil => intro h; simp at h
  | cons q l ih =>
    intro h
    rw [List.foldr_cons] at h
    rcases List.mem_append.mp h with h2 | h2
    · rcases List.mem_append.mp h2 with h3 | h3
      · by_cases h1 : q.1.src = cur
        · rw [if_pos h1] at h3
          rcases List.mem_cons.mp h3 with rfl | h3
          · exact ⟨q, List.mem_cons_self q l, Or.inl ⟨h1, rfl⟩, rfl⟩
          · simp at h3
        · rw [if_neg h1] at h3
          simp at h3
      · by_cases h1 : q.1.tgt = cur
        · rw [if_pos h1] at h3
          rcases List.mem_cons.mp h3 with rfl | h3
          · exact ⟨q, List.mem_cons_self q l, Or.inr ⟨h1, rfl⟩, rfl⟩
          · simp at h3
        · rw [if_neg h1] at h3
          simp at h3
    · obtain ⟨pr, hpr, hrest⟩ := ih h2
      exact ⟨pr, List.mem_cons_of_mem q hpr, hrest⟩

theorem extendWalks_mem (ws : List (List String × List EdgeRec)) (pr : List String × List EdgeRec)
    (h : pr ∈ extendWalks ws) :
    ∃ w0 ∈ ws, ∃ cur t, w0.1 = cur :: t ∧
      ∃ st ∈ undirSteps cur w0.2, pr = (st.1 :: w0.1, st.2) := by
  unfold extendWalks at h
  induction ws with
  | nil => simp at h
  | cons w0 ws ih =>
    rw [List.foldr_cons] at h
    rcases List.mem_append.mp h with h2 | h2
    · cases hw : w0.1 with
      | nil =>
        rw [hw] at h2
        simp at h2
      | cons cur t =>
        rw [hw] at h2
        obtain ⟨st, hst, rfl⟩ := List.mem_map.mp h2
        exact ⟨w0, List.mem_cons_self w0 ws, cur, t, hw, st, hst, by rw [hw]⟩
    · obtain ⟨w1, hw1, rest⟩ := ih h2
      exact ⟨w1, List.mem_cons_of_mem w0 hw1, rest⟩

theorem walksN_spec (es : List EdgeRec) (a : String) (k : Nat) :
    ∀ w rem, (w, rem) ∈ walksN es a k →
      w.length = k + 1 ∧ w.getLast? = some a ∧ (∀ x ∈ rem, x ∈ es) ∧
      List.Chain' (fun x y => undirAdj es x y) w := by
  induction k with
  | zero =>
    intro w rem h
    simp only [walksN, List.mem_singleton] at h
    injection h with h1 h2
    subst h1
    subst h2
    exact ⟨rfl, rfl, fun x hx => hx, List.chain'_singleton a⟩
  | succ k ih =>
    intro w rem h
    obtain ⟨w0, hw0, cur, t, hcur, st, hst, heq⟩ := extendWalks_mem _ _ h
    injection heq with h1 h2
    subst h1
    subst h2
    obtain ⟨hlen, hlast, hsub, hchain⟩ := ih w0.1 w0.2 hw0
    obtain ⟨pr, hpr, hor, hrest⟩ := undirSteps_mem cur w0.2 st hst
    have hpm := picks_mem w0.2 pr hpr
    refine ⟨by simp [hlen], ?_, ?_, ?_⟩
    · rw [hcur, List.getLast?_cons_cons, ← hcur]
      exact hlast
    · intro x hx
      rw [hrest] at hx
      exact hsub x (hpm.2 x hx)
    · rw [hcur, List.chain'_cons]
      constructor
      · have he : pr.1 ∈ es := hsub pr.1 hpm.1
        rcases hor with ⟨hsrc, htgt⟩ | ⟨htgt, hsrc⟩
        · exact ⟨pr.1, he, Or.inr ⟨hsrc, htgt⟩⟩
        · exact ⟨pr.1, he, Or.inl ⟨hsrc, htgt⟩⟩
      · rw [← hcur]
        exact hchain

theorem walkTo_some (es : List EdgeRec) (a b : String) (k : Nat) (p : List String)
    (h : walkTo es a b k = some p) :
    ∃ w rem, (w, rem) ∈ walksN es a k ∧ w.head? = some b ∧ p = w.reverse := by
  unfold walkTo at h
  cases hf : (walksN es a k).find? (fun w => w.1.head? = some b) with
  | none =>
    rw [hf] at h
    simp at h
  | some pr =>
    rw [hf] at h
    simp only [Option.map_some'] at h
    injection h with h
    refine ⟨pr.1, pr.2, List.mem_of_find?_eq_some hf, ?_, h.symm⟩
    have h2 := List.find?_some hf
    simpa using h2

theorem walkTo_none (es : List EdgeRec) (a b : String) (k : Nat)
    (h : walkTo es a b k = none) :
    ∀ w rem, (w, rem) ∈ walksN es a k → w.head? ≠ some b := by
  unfold walkTo at h
  cases hf : (walksN es a k).find? (fun w => w.1.head? = some b) with
  | none =>
    intro w rem hmem hhead
    have h2 := List.find?_eq_none.mp hf (w, rem) hmem
    simp at h2
    exact h2 hhead
  | some pr =>
    rw [hf] at h
    simp at h

theorem shortestUpTo_none (es : List EdgeRec) (a b : String) (K : Nat)
    (h : shortestUpTo es a b K = none) :
    ∀ j, 1 ≤ j → j ≤ K → walkTo es a b j = none := by
  induction K with
  | zero =>
    intro j h1 h2
    omega
  | succ K ih =>
    intro j h1 h2
    unfold shortestUpTo at h
    cases hs : shortestUpTo es a b K with
    | some q =>
      rw [hs] at h
      simp [Option.orElse] at h
    | none =>
      rw [hs] at h
      simp only [Option.orElse] at h
      by_cases hj : j = K + 1
      · subst hj
        exact h
      · exact ih hs j h1 (by omega)

theorem shortestUpTo_some (es : List EdgeRec) (a b : String) (K : Nat) (p : List String)
    (h : shortestUpTo es a b K = some p) :
    ∃ k, 1 ≤ k ∧ k ≤ K ∧ walkTo es a b k = some p ∧
      ∀ j, 1 ≤ j → j < k → walkTo es a b j = none := by
  induction K with
  | zero => simp [shortestUpTo] at h
  | succ K ih =>
    unfold shortestUpTo at h
    cases hs : shortestUpTo es a b K with
    | some q =>
      rw [hs] at h
      simp only [Option.orElse] at h
      injection h with h
      subst h
      obtain ⟨k, h1, h2, h3, h4⟩ := ih hs
      exact ⟨k, h1, by omega, h3, h4⟩
    | none =>
      rw [hs] at h
      simp only [Option.orElse] at h
      exact ⟨K + 1, by omega, le_refl _, h,
        fun j hj1 hj2 => shortestUpTo_none es a b K hs j hj1 (by omega)⟩

theorem foldl_dedup_length {α : Type} [DecidableEq α] (l : List α) :
    ∀ acc : List α, acc.length ≤
      (l.foldl (fun acc x => if acc.contains x then acc else acc ++ [x]) acc).length := by
  induction l with
  | nil => intro acc; exact le_refl _
  | cons x xs ih =>
    intro acc
    rw [List.foldl_cons]
    refine le_trans ?_ (ih _)
    by_cases hc : acc.contains x
    · rw [if_pos hc]
    · rw [if_neg hc]
      simp

/-- C2 counterexample: the claim says `path(a, a) = [a]` for every node
in the store, but the pattern `shortestPath((start)-[*..15]-(end))` has
a one-hop lower bound (and default Neo4j raises outright on equal
endpoints): on a store holding node `service:a` and no relationships,
`path(service:a, service:a)` is empty, not `[service:a]`. -/
theorem C2_counterexample :
    get_node c2aStore "service:a" ≠ none ∧
    path c2aStore "service:a" "service:a" = [] ∧
    ([] : List String) ≠ ["service:a"] := by
  decide

/-- C2 amended: when `path` returns a nonempty sequence, it is the
node-id sequence (DISTINCT-deduplicated, from `fromId` to `toId`) of an
undirected relationship-distinct walk of minimal hop count `k` with
`1 ≤ k ≤ 15` — consecutive nodes joined by stored relationships, and no
such walk of fewer hops reaching `toId` exists, so the returned length
is the shortest hop count within the bound; the result is empty exactly
when an endpoint is absent or no such walk of 1..15 hops exists (hence
`path(a, a)` is empty for a node on no cycle, and equal-length ties are
resolved by the engine's internal order, not lexicographically). -/
theorem C2_amended_shortest_path (s : Store) (a b : String) :
    (path s a b ≠ [] →
      ∃ k w rem, 1 ≤ k ∧ k ≤ 15 ∧ (w, rem) ∈ walksN s.edges a k ∧
        w.head? = some b ∧ path s a b = dedupKeep w.reverse ∧
        w.length = k + 1 ∧ w.getLast? = some a ∧
        List.Chain' (fun x y => undirAdj s.edges x y) w ∧
        (∀ j, 1 ≤ j → j < k → ∀ w2 rem2, (w2, rem2) ∈ walksN s.edges a j →
          w2.head? ≠ some b)) ∧
    ((get_node s a).isSome → (get_node s b).isSome →
      (path s a b = [] ↔
        ∀ k, 1 ≤ k → k ≤ 15 → ∀ w rem, (w, rem) ∈ walksN s.edges a k →
          w.head? ≠ some b)) := by
  constructor
  · intro hne
    by_cases hab : ((get_node s a).isSome && (get_node s b).isSome) = true
    · cases hs : shortestUpTo s.edges a b 15 with
      | none =>
        exfalso
        apply hne
        unfold path
        rw [if_pos hab, hs]
      | some p0 =>
        have hpath : path s a b = dedupKeep p0 := by
          unfold path
          rw [if_pos hab, hs]
        obtain ⟨k, h1, h2, h3, h4⟩ := shortestUpTo_some s.edges a b 15 p0 hs
        obtain ⟨w, rem, hmem, hhead, hrev⟩ := walkTo_some s.edges a b k p0 h3
        obtain ⟨hlen, hlast, _, hchain⟩ := walksN_spec s.edges a k w rem hmem
        refine ⟨k, w, rem, h1, h2, hmem, hhead, ?_, hlen, hlast, hchain, ?_⟩
        · rw [hpath, hrev]
        · intro j hj1 hj2 w2 rem2 hmem2
          exact walkTo_none s.edges a b j (h4 j hj1 hj2) w2 rem2 hmem2
    · exfalso
      apply hne
      unfold path
      rw [if_neg hab]
  · intro ha hb
    have hab : ((get_node s a).isSome && (get_node s b).isSome) = true := by
      simp [ha, hb]
    cases hs : shortestUpTo s.edges a b 15 with
    | none =>
      have hpath : path s a b = [] := by
        unfold path
        rw [if_pos hab, hs]
      constructor
      · intro _ k hk1 hk2 w rem hmem
        exact walkTo_none s.edges a b k (shortestUpTo_none s.edges a b 15 hs k hk1 hk2) w rem hmem
      · intro _
        exact hpath
    | some p0 =>
      have hpath : path s a b = dedupKeep p0 := by
        unfold path
        rw [if_pos hab, hs]
      constructor
      · intro hd
        exfalso
        obtain ⟨k, h1, h2, h3, _⟩ := shortestUpTo_some s.edges a b 15 p0 hs
        obtain ⟨w, rem, hmem, hhead, hrev⟩ := walkTo_some s.edges a b k p0 h3
        obtain ⟨hlen, _, _, _⟩ := walksN_spec s.edges a k w rem hmem
        rw [hpath] at hd
        cases hp0 : p0 with
        | nil =>
          rw [hp0] at hrev
          have hw : w = [] := by
            have h5 : w.reverse = [] := hrev.symm
            simpa using h5
          rw [hw] at hlen
          simp at hlen
        | cons y ys =>
          rw [hp0] at hd
          unfold dedupKeep at hd
          rw [List.foldl_cons] at hd
          have hlb := foldl_dedup_length ys (if ([] : List String).contains y then [] else [] ++ [y])
          rw [hd] at hlb
          simp at hlb
      · intro hall
        obtain ⟨k, h1, h2, h3, _⟩ := shortestUpTo_some s.edges a b 15 p0 hs
        obtain ⟨w, rem, hmem, hhead, _⟩ := walkTo_some s.edges a b k p0 h3
        exact absurd hhead (hall k h1 h2 w rem hmem)

/-- C2 witness: the amended theorem applied to the scenario store, where
`path(A, C)` is the concrete sequence `[A, B, C]`. -/
theorem C2_witness :
    path c6Store "service:a" "service:c" = ["service:a", "service:b", "service:c"] ∧
    path c6Store "service:a" "service:c" ≠ [] ∧
    (∃ k w rem, 1 ≤ k ∧ k ≤ 15 ∧ (w, rem) ∈ walksN c6Store.edges "service:a" k ∧
      w.head? = some "service:c" ∧
      path c6Store "service:a" "service:c" = dedupKeep w.reverse ∧
      w.length = k + 1 ∧ w.getLast? = some "service:a" ∧
      List.Chain' (fun x y => undirAdj c6Store.edges x y) w ∧
      (∀ j, 1 ≤ j → j < k → ∀ w2 rem2, (w2, rem2) ∈ walksN c6Store.edges "service:a" j →
        w2.head? ≠ some "service:c")) :=
  ⟨by decide, by decide,
    (C2_amended_shortest_path c6Store "service:a" "service:c").1 (by decide)⟩

/-- C6 witness: the amended characterization applied on the cycle
fixture to the start node itself, which is in its own downstream set. -/
theorem C6_witness :
    ([("id", Val.s "service:a"), ("type", Val.s "service"), ("name", Val.s "a")] : Props) ∈
      downstream cycStore "service:a" ∧
    (([("id", Val.s "service:a"), ("type", Val.s "service"), ("name", Val.s "a")] : Props) ∈
        cycStore.nodes ∧
      ∃ i k, getProp [("id", Val.s "service:a"), ("type", Val.s "service"), ("name", Val.s "a")] "id" =
          some (Val.s i) ∧ 1 ≤ k ∧ k ≤ 10 ∧ DirWalk cycStore.edges "service:a" i k) :=
  ⟨by decide,
    ((C6_amended_downstream_upstream.1 cycStore "service:a"
      [("id", Val.s "service:a"), ("type", Val.s "service"), ("name", Val.s "a")]).1).mp (by decide)⟩
